import Mathlib

/-!
Shallow embedding of the ygo-genesys-helper deck codec, point aggregation
engine and missing-id resolution (src/lib/ydke.ts, src/lib/strings.ts,
src/App.tsx), together with proofs of the specification claims.

Strings are modelled as `List Char`; JavaScript numbers holding card ids,
counts and points are modelled as `Nat` (card ids are unsigned 32-bit
values, written modulo 2^32 where the code goes through `DataView`).
Platform primitives used by the code (`trim`, `toLowerCase`,
`localeCompare`, `atob`/`btoa`, UTF-8 text codecs, pako gzip) are modelled
explicitly below, each with a doc comment stating the modelling choice.
-/

/-! ## JavaScript string primitives -/

/-- Characters treated as whitespace by JavaScript (`\s`, `trim`):
tab, LF, VT, FF, CR, space, NBSP, and the Unicode space/separator set. -/
def isJsWs (c : Char) : Bool :=
  let n := c.toNat
  n == 0x9 || n == 0xA || n == 0xB || n == 0xC || n == 0xD || n == 0x20 ||
  n == 0xA0 || n == 0x1680 || (0x2000 ≤ n && n ≤ 0x200A) || n == 0x2028 ||
  n == 0x2029 || n == 0x202F || n == 0x205F || n == 0x3000 || n == 0xFEFF

/-- JavaScript `String.prototype.trim`: strip whitespace from both ends. -/
def jsTrim (l : List Char) : List Char :=
  ((l.dropWhile isJsWs).reverse.dropWhile isJsWs).reverse

/-- JavaScript `String.prototype.toLowerCase`, modelled on the ASCII and
Latin-1 ranges (`A`-`Z` and `À`-`Þ` except `×` map to the code point 32
higher); all other characters are returned unchanged. -/
def jsToLowerChar (c : Char) : Char :=
  let n := c.toNat
  if 0x41 ≤ n ∧ n ≤ 0x5A then Char.ofNat (n + 32)
  else if (0xC0 ≤ n ∧ n ≤ 0xDE) ∧ n ≠ 0xD7 then Char.ofNat (n + 32)
  else c

def jsToLower (l : List Char) : List Char := l.map jsToLowerChar

/-- JavaScript `String.prototype.includes`: substring test. -/
def hasSub (needle : List Char) : List Char → Bool
  | [] => needle.isPrefixOf []
  | c :: t => needle.isPrefixOf (c :: t) || hasSub needle t

/-- JavaScript `String.prototype.indexOf` for a fixed needle: index of the
first occurrence, `none` when absent (the code checks `>= 0`). -/
def indexOfSub (needle : List Char) : List Char → Option Nat
  | [] => if needle.isPrefixOf [] then some 0 else none
  | c :: t =>
    if needle.isPrefixOf (c :: t) then some 0
    else (indexOfSub needle t).map (· + 1)

/-- JavaScript `String.prototype.split` with a single-character separator
(`'a!!b'.split('!') = ['a','','b']`, `''.split('!') = ['']`). -/
def jsSplit (sep : Char) : List Char → List (List Char)
  | [] => [[]]
  | c :: rest =>
    if c = sep then [] :: jsSplit sep rest
    else
      match jsSplit sep rest with
      | [] => [[c]]
      | g :: gs => (c :: g) :: gs

/-- JavaScript `String.prototype.localeCompare`, modelled as code-point
lexicographic three-way comparison (negative / zero / positive). -/
def compareL : List Char → List Char → Int
  | [], [] => 0
  | [], _ :: _ => -1
  | _ :: _, [] => 1
  | a :: as, b :: bs =>
    if a.toNat < b.toNat then -1
    else if b.toNat < a.toNat then 1
    else compareL as bs

/-! ## Base64 (`btoa` / `atob` platform primitives)

`bytesToBase64Standard`, `bytesToBase64Url` and `base64ToBytes` in
src/lib/ydke.ts drive the browser's `btoa` / `atob`.  Bytes are `Nat`
values below 256.  `atob` is modelled on inputs whose length is a multiple
of four, which is the only way the repository calls it (`base64ToBytes`
always re-pads before calling `atob`). -/

def b64Alphabet : List Char :=
  "ABCDEFGHIJKLMNOPQRSTUVWXYZabcdefghijklmnopqrstuvwxyz0123456789+/".toList

def sextetToChar (n : Nat) : Char := b64Alphabet.getD n 'A'

def charToSextet (c : Char) : Option Nat := b64Alphabet.indexOf? c

/-- The browser's `btoa`: standard-alphabet base64 with `=` padding. -/
def btoaBytes : List Nat → List Char
  | [] => []
  | [b1] => [sextetToChar (b1 / 4), sextetToChar (b1 % 4 * 16), '=', '=']
  | [b1, b2] =>
    [sextetToChar (b1 / 4), sextetToChar (b1 % 4 * 16 + b2 / 16),
     sextetToChar (b2 % 16 * 4), '=']
  | b1 :: b2 :: b3 :: rest =>
    sextetToChar (b1 / 4) :: sextetToChar (b1 % 4 * 16 + b2 / 16) ::
    sextetToChar (b2 % 16 * 4 + b3 / 64) :: sextetToChar (b3 % 64) ::
    btoaBytes rest

/-- The browser's `atob` on padded input: decode groups of four base64
characters, allowing `=` padding only in the final group; any character
outside the alphabet (including an interior `=`) is an error (`none`). -/
def atobChars : List Char → Option (List Nat)
  | [] => some []
  | c1 :: c2 :: c3 :: c4 :: rest =>
    match charToSextet c1, charToSextet c2 with
    | some s1, some s2 =>
      if c3 = '=' then
        if c4 = '=' ∧ rest = [] then some [s1 * 4 + s2 / 16] else none
      else
        match charToSextet c3 with
        | some s3 =>
          if c4 = '=' then
            if rest = [] then some [s1 * 4 + s2 / 16, s2 % 16 * 16 + s3 / 4]
            else none
          else
            match charToSextet c4, atobChars rest with
            | some s4, some bs =>
              some ((s1 * 4 + s2 / 16) :: (s2 % 16 * 16 + s3 / 4) ::
                    (s3 % 4 * 64 + s4) :: bs)
            | _, _ => none
        | none => none
    | _, _ => none
  | _ => none

/-- The two `replace` calls in `base64ToBytes` that map the URL-safe
alphabet back to the standard one: dash to plus, underscore to slash. -/
def normalizeB64Char (c : Char) : Char :=
  if c = '-' then '+' else if c = '_' then '/' else c

def normalizeB64 (l : List Char) : List Char := l.map normalizeB64Char

/-- Re-padding to a multiple of four characters in `base64ToBytes`. -/
def padB64 (l : List Char) : List Char :=
  l ++ List.replicate ((4 - l.length % 4) % 4) '='

/-- `base64ToBytes` from src/lib/ydke.ts: normalize the URL-safe alphabet,
re-pad, and run `atob`. -/
def base64ToBytes (s : List Char) : Option (List Nat) :=
  atobChars (padB64 (normalizeB64 s))

/-- Strip the trailing `=` run: `.replace(/=+$/u, '')`. -/
def stripEq (l : List Char) : List Char :=
  ((l.reverse.dropWhile (· = '=')).reverse)

def plusToMinus (c : Char) : Char := if c = '+' then '-' else c

def slashToUnderscore (c : Char) : Char := if c = '/' then '_' else c

/-- `bytesToBase64Url` from src/lib/ydke.ts: `btoa`, then
`.replace(/\+/g, '-').replace(/\//g, '_').replace(/=+$/u, '')`. -/
def bytesToBase64Url (bs : List Nat) : List Char :=
  stripEq (((btoaBytes bs).map plusToMinus).map slashToUnderscore)

/-- `bytesToBase64Standard` from src/lib/ydke.ts: plain `btoa`. -/
def bytesToBase64Standard (bs : List Nat) : List Char := btoaBytes bs

/-! ## UTF-8 and the compression layer -/

/-- UTF-8 encoding of one character (the platform text encoder used by
`pako.gzip` on string input). -/
def utf8EncodeChar (c : Char) : List Nat :=
  let v := c.toNat
  if v < 0x80 then [v]
  else if v < 0x800 then [0xC0 + v / 64, 0x80 + v % 64]
  else if v < 0x10000 then
    [0xE0 + v / 4096, 0x80 + v / 64 % 64, 0x80 + v % 64]
  else
    [0xF0 + v / 262144, 0x80 + v / 4096 % 64, 0x80 + v / 64 % 64,
     0x80 + v % 64]

def utf8Encode : List Char → List Nat
  | [] => []
  | c :: rest => utf8EncodeChar c ++ utf8Encode rest

/-- UTF-8 decoding (the platform `TextDecoder`); `none` on a malformed
byte sequence.  Continuation bytes are read with `getD`/`drop` to keep the
recursion's equations simple. -/
def utf8Decode : List Nat → Option (List Char)
  | [] => some []
  | b :: rest =>
    if b < 0x80 then (utf8Decode rest).map (Char.ofNat b :: ·)
    else if b < 0xC0 then none
    else if b < 0xE0 then
      if 1 ≤ rest.length ∧ 0x80 ≤ rest.getD 0 0 ∧ rest.getD 0 0 < 0xC0 then
        (utf8Decode (rest.drop 1)).map
          (Char.ofNat ((b - 0xC0) * 64 + (rest.getD 0 0 - 0x80)) :: ·)
      else none
    else if b < 0xF0 then
      if 2 ≤ rest.length ∧ (0x80 ≤ rest.getD 0 0 ∧ rest.getD 0 0 < 0xC0) ∧
          0x80 ≤ rest.getD 1 0 ∧ rest.getD 1 0 < 0xC0 then
        (utf8Decode (rest.drop 2)).map
          (Char.ofNat ((b - 0xE0) * 4096 + (rest.getD 0 0 - 0x80) * 64 +
            (rest.getD 1 0 - 0x80)) :: ·)
      else none
    else if b < 0xF8 then
      if 3 ≤ rest.length ∧ (0x80 ≤ rest.getD 0 0 ∧ rest.getD 0 0 < 0xC0) ∧
          (0x80 ≤ rest.getD 1 0 ∧ rest.getD 1 0 < 0xC0) ∧
          0x80 ≤ rest.getD 2 0 ∧ rest.getD 2 0 < 0xC0 then
        (utf8Decode (rest.drop 3)).map
          (Char.ofNat ((b - 0xF0) * 262144 + (rest.getD 0 0 - 0x80) * 4096 +
            (rest.getD 1 0 - 0x80) * 64 + (rest.getD 2 0 - 0x80)) :: ·)
      else none
    else none
termination_by l => l.length
decreasing_by
  · simp
  · simp only [List.length_cons, List.length_drop]
    omega
  · simp only [List.length_cons, List.length_drop]
    omega
  · simp only [List.length_cons, List.length_drop]
    omega

/-- Modelled from the spec: the deflate layer of `pako.gzip` /
`pako.ungzip` (a third-party general-purpose lossless byte-stream
compressor, not part of this repository) is modelled as the identity
byte codec — exactly the losslessness the spec relies on. -/
def gzipBytes (bs : List Nat) : List Nat := bs

/-- Modelled from the spec: inverse of `gzipBytes`; `pako.ungzip` fails on
corrupt input, hence the `Option`. -/
def ungzipBytes (bs : List Nat) : Option (List Nat) := some bs

/-- `pako.gzip` applied to a string: UTF-8 encode, then compress. -/
def pakoGzipStr (s : List Char) : List Nat := gzipBytes (utf8Encode s)

/-! ## Deck codec (src/lib/ydke.ts) -/

/-- One card id written by `DataView.setUint32(…, id, true)`: four
little-endian bytes of the value reduced modulo 2^32. -/
def u32leBytes (id : Nat) : List Nat :=
  let v := id % 4294967296
  [v % 256, v / 256 % 256, v / 65536 % 256, v / 16777216 % 256]

/-- The flat byte buffer of a section: each id in sequence order as four
little-endian bytes (`encodeSection`'s loop of `setUint32`). -/
def sectionBytes : List Nat → List Nat
  | [] => []
  | id :: rest => u32leBytes id ++ sectionBytes rest

/-- `decodeSection`'s read loop: successive `getUint32(offset, true)`. -/
def readU32s : List Nat → List Nat
  | b0 :: b1 :: b2 :: b3 :: rest =>
    (b0 + b1 * 256 + b2 * 65536 + b3 * 16777216) :: readU32s rest
  | _ => []

/-- `decodeSection`'s inferred-slot loop: a decoded id of `0` is counted
only when `lastId` is non-zero, and `lastId` tracks the last non-zero id
seen so far (it starts at `0`). -/
def countInferred (lastId : Nat) : List Nat → Nat
  | [] => 0
  | id :: rest =>
    if id = 0 then
      (if lastId ≠ 0 then 1 else 0) + countInferred lastId rest
    else countInferred id rest

structure DecodedSection where
  cards : List Nat
  inferredCount : Nat
deriving DecidableEq

/-- `decodeSection` from src/lib/ydke.ts.  An empty part decodes to an
empty section; otherwise base64-decode (an `atob` failure propagates as an
error), require 4-byte alignment, read little-endian 32-bit ids, and count
inferred placeholder slots.  The source's `hasInferredIds` flag equals
`inferredCount > 0` and is not consumed by `parseYdke`, so it is not
carried separately. -/
def decodeSection (s : List Char) : Except String DecodedSection :=
  if s = [] then .ok ⟨[], 0⟩
  else
    match base64ToBytes s with
    | none => .error "InvalidCharacterError"
    | some bytes =>
      if bytes.length % 4 ≠ 0 then
        .error "Invalid YDKE data. Each section must be aligned to 4 bytes."
      else
        let cards := readU32s bytes
        .ok ⟨cards, countInferred 0 cards⟩

structure ParsedDeck where
  main : List Nat
  extra : List Nat
  side : List Nat
  hasInferredIds : Option Bool
  inferredCardCount : Option Nat
deriving DecidableEq

/-- `parseYdke` from src/lib/ydke.ts.  `hasInferredIds` and
`inferredCardCount` model the JavaScript values `inferredCount > 0 ||
undefined` and `inferredCount || undefined`: absent (`none`) when the
count is zero. -/
def parseYdke (rawInput : List Char) : Except String ParsedDeck :=
  let sanitized := jsTrim rawInput
  if sanitized = [] then .error "Paste a YDKE link to get started."
  else
    let data :=
      match indexOfSub ("ydke://".toList) (jsToLower sanitized) with
      | some marker => sanitized.drop (marker + 7)
      | none => sanitized
    let sections := jsSplit '!' (data.filter (fun c => !(isJsWs c)))
    if sections.length < 3 then
      .error "Incomplete YDKE link. Make sure it includes main, extra, and side sections."
    else do
      let m ← decodeSection (sections.getD 0 [])
      let e ← decodeSection (sections.getD 1 [])
      let s ← decodeSection (sections.getD 2 [])
      let inferredCount := m.inferredCount + e.inferredCount + s.inferredCount
      .ok ⟨m.cards, e.cards, s.cards,
           if 0 < inferredCount then some true else none,
           if inferredCount ≠ 0 then some inferredCount else none⟩

/-- `encodeSection` from src/lib/ydke.ts. -/
def encodeSection (ids : List Nat) : List Char :=
  if ids = [] then [] else bytesToBase64Standard (sectionBytes ids)

/-- `buildYdke` from src/lib/ydke.ts: the three encoded sections joined
with `!` behind the `ydke://` prefix. -/
def buildYdke (main extra side : List Nat) : List Char :=
  "ydke://".toList ++
    (encodeSection main ++ '!' :: encodeSection extra ++ '!' :: encodeSection side)

/-- `encodeDeckHash` from src/lib/ydke.ts: gzip the trimmed deck-code URI
text, base64url-encode without padding. -/
def encodeDeckHash (ydke : List Char) : List Char :=
  bytesToBase64Url (pakoGzipStr (jsTrim ydke))

/-- `decodeDeckHash` from src/lib/ydke.ts: base64-decode (re-padding),
decompress, decode the text. -/
def decodeDeckHash (encoded : List Char) : Option (List Char) := do
  let bytes ← base64ToBytes encoded
  let text ← ungzipBytes bytes
  utf8Decode text

/-! ## Card-name helpers (src/lib/strings.ts, src/App.tsx) -/

/-- The first `replace` of `normalizeCardName`: every (non-overlapping,
left-to-right) occurrence of the three-character mojibake sequence
`â` `€` `™` becomes an apostrophe. -/
def replaceMoji : List Char → List Char
  | [] => []
  | [c] => [c]
  | [c1, c2] => [c1, c2]
  | c1 :: c2 :: c3 :: rest =>
    if c1 = 'â' ∧ c2 = '€' ∧ c3 = '™' then '\'' :: replaceMoji rest
    else c1 :: replaceMoji (c2 :: c3 :: rest)

/-- State machine for the second `replace` of `normalizeCardName` (and of
`simplifyCardName`): the flag records whether the previous character was
whitespace, so that every maximal whitespace run becomes one space. -/
def collapseWsAux : Bool → List Char → List Char
  | _, [] => []
  | prevWs, c :: rest =>
    if isJsWs c then
      if prevWs then collapseWsAux true rest
      else ' ' :: collapseWsAux true rest
    else c :: collapseWsAux false rest

/-- The second `replace` of `normalizeCardName` (and of
`simplifyCardName`): every maximal whitespace run becomes one space. -/
def collapseWs (l : List Char) : List Char := collapseWsAux false l

/-- `normalizeCardName` from src/lib/strings.ts: trim, repair the
mis-encoded apostrophe, collapse whitespace, lower-case. -/
def normalizeCardName (name : List Char) : List Char :=
  jsToLower (collapseWs (replaceMoji (jsTrim name)))

/-- Does `s` match the tail regex of `simplifyCardName`,
whitespace* `(` non-paren* `)` whitespace* end-of-string? -/
def matchesTailParen (s : List Char) : Bool :=
  match s.dropWhile isJsWs with
  | '(' :: rest =>
    match rest.dropWhile (· ≠ ')') with
    | ')' :: tail => tail.dropWhile isJsWs = [] &&
        (rest.takeWhile (· ≠ ')')).all (· ≠ ')')
    | _ => false
  | _ => false

/-- The first `replace` of `simplifyCardName`: delete the leftmost (hence
only) match of the trailing-parenthetical regex. -/
def stripTailParen : List Char → List Char
  | [] => []
  | c :: rest =>
    if matchesTailParen (c :: rest) then []
    else c :: stripTailParen rest

/-- `simplifyCardName` from src/App.tsx: drop a trailing parenthetical
suffix, collapse whitespace, trim. -/
def simplifyCardName (name : List Char) : List Char :=
  jsTrim (collapseWs (stripTailParen name))

/-- JavaScript truthiness of an optional string: absent or empty is falsy. -/
def falsyStr : Option (List Char) → Bool
  | none => true
  | some s => s.isEmpty

/-- JavaScript truthiness of an optional number: absent or zero is falsy. -/
def falsyNat : Option Nat → Bool
  | none => true
  | some n => n == 0

/-- `formatCardTypeLabel` from src/lib/strings.ts. -/
def formatCardTypeLabel (type? race? : Option (List Char)) : List Char :=
  let baseType := type?.map jsTrim
  let baseRace := race?.map jsTrim
  let fallback := (baseType.orElse (fun _ => baseRace)).getD
    ("Unknown Card Type".toList)
  if falsyStr baseType then fallback
  else
    let typeLower := jsToLower (baseType.getD [])
    let raceLower := jsToLower (baseRace.getD [])
    if hasSub ("spell".toList) typeLower then
      if hasSub ("quick".toList) raceLower then "Quick-Play Spell Card".toList
      else if hasSub ("field".toList) raceLower then "Field Spell Card".toList
      else if hasSub ("continuous".toList) raceLower then
        "Continuous Spell Card".toList
      else if hasSub ("ritual".toList) raceLower then "Ritual Spell Card".toList
      else if hasSub ("equip".toList) raceLower then "Equip Spell Card".toList
      else if hasSub ("normal".toList) raceLower then "Normal Spell Card".toList
      else "Spell Card".toList
    else if hasSub ("trap".toList) typeLower then
      if hasSub ("counter".toList) raceLower then "Counter Trap Card".toList
      else if hasSub ("continuous".toList) raceLower then
        "Continuous Trap Card".toList
      else if hasSub ("normal".toList) raceLower then "Normal Trap Card".toList
      else "Trap Card".toList
    else fallback

/-! ## Aggregator data model (src/types.ts, src/App.tsx) -/

inductive DeckSection
  | main
  | extra
  | side
deriving DecidableEq

/-- `CardDetails` from src/types.ts (the externally fetched metadata). -/
structure CardDetails where
  id : Nat := 0
  name : List Char
  type : Option (List Char) := none
  race : Option (List Char) := none
  level : Option Nat := none
  linkValue : Option Nat := none
  image : Option (List Char) := none
  desc : Option (List Char) := none
  ygoprodeckUrl : Option (List Char) := none
deriving DecidableEq

/-- `DeckCardGroup` from src/types.ts as produced by `toGroup`. -/
structure DeckCardGroup where
  id : Nat
  count : Nat
  zone : DeckSection
  name : List Char
  image : Option (List Char)
  type : Option (List Char)
  race : Option (List Char)
  displayType : List Char
  desc : Option (List Char)
  level : Option Nat
  linkValue : Option Nat
  orderIndex : Nat
  linkUrl : Option (List Char)
  pointsPerCopy : Nat
  totalPoints : Nat
  missingInfo : Bool
  notInList : Bool
deriving DecidableEq

/-- `GenesysCard` from src/types.ts: one entry of the point table. -/
structure GenesysCard where
  name : List Char
  points : Nat
deriving DecidableEq

/-- The entries fed to `new Map(...)` in `genesysPointMap`:
normalized name paired with points, in source order. -/
def buildPointEntries (cards : List GenesysCard) : List (List Char × Nat) :=
  cards.map (fun c => (normalizeCardName c.name, c.points))

/-- JavaScript `Map` lookup over insertion-ordered entries: a later entry
with the same key overwrites an earlier one, so the last binding wins. -/
def jsMapGet (entries : List (List Char × Nat)) (k : List Char) : Option Nat :=
  (entries.reverse.find? (fun p => p.1 == k)).map (·.2)

/-! ## Deck aggregator (`toGroup` and friends, src/App.tsx) -/

/-- One entry of `toGroup`'s `counts` map: `(id, count, firstIndex)`.
JavaScript `Map`s iterate in insertion order, so the map is an
insertion-ordered association list. -/
def bumpCount : List (Nat × Nat × Nat) → Nat → Nat → List (Nat × Nat × Nat)
  | [], id, index => [(id, 1, index)]
  | e :: rest, id, index =>
    if e.1 = id then (e.1, e.2.1 + 1, e.2.2) :: rest
    else e :: bumpCount rest id index

/-- `toGroup`'s count pass: walk the id sequence once, recording count and
first-occurrence index per distinct id, in first-occurrence order. -/
def countPass (ids : List Nat) : List (Nat × Nat × Nat) :=
  ids.enum.foldl (fun acc p => bumpCount acc p.2 p.1) []

/-- One element of `rawGroups` in `toGroup`: the enrichment of one
distinct card id.  `table` is the `cardDetails` lookup (the external
metadata, possibly partial), `pointEntries` the Genesys point map. -/
def mkRawGroup (table : Nat → Option CardDetails)
    (pointEntries : List (List Char × Nat)) (zone : DeckSection)
    (entry : Nat × Nat × Nat) : DeckCardGroup :=
  let id := entry.1
  let cnt := entry.2.1
  let firstIndex := entry.2.2
  let info := table id
  let fallbackName :=
    if id = 0 then "Missing ID".toList else "Card #".toList ++ (Nat.repr id).toList
  let originalName := match info with
    | some i => i.name
    | none => fallbackName
  let displayName :=
    if id = 0 ∧ falsyStr (info.map (·.name)) then fallbackName
    else simplifyCardName originalName
  let normalized := normalizeCardName displayName
  let points := jsMapGet pointEntries normalized
  let rawType := info.bind (·.type)
  let rawRace := info.bind (·.race)
  { id := id
    count := cnt
    zone := zone
    name := displayName
    image := info.bind (·.image)
    type := rawType.orElse (fun _ => info.bind (·.race))
    race := rawRace
    displayType := formatCardTypeLabel (rawType.orElse (fun _ => info.bind (·.race))) rawRace
    desc := info.bind (·.desc)
    level := info.bind (·.level)
    linkValue := info.bind (·.linkValue)
    orderIndex := firstIndex
    linkUrl := info.bind (·.ygoprodeckUrl)
    pointsPerCopy := points.getD 0
    totalPoints := points.getD 0 * cnt
    missingInfo := info.isNone
    notInList := (jsMapGet pointEntries normalized).isNone }

/-- Filling an empty optional string field from the incoming variant
(`if (!existing.f && card.f) existing.f = card.f`). -/
def fillStr (existing incoming : Option (List Char)) : Option (List Char) :=
  if falsyStr existing ∧ ¬ falsyStr incoming then incoming else existing

def fillNat (existing incoming : Option Nat) : Option Nat :=
  if falsyNat existing ∧ ¬ falsyNat incoming then incoming else existing

/-- The in-place update applied when a raw group hits an existing merged
entry with the same key. -/
def mergeGroups (e g : DeckCardGroup) : DeckCardGroup :=
  { e with
    count := e.count + g.count
    totalPoints := e.totalPoints + g.totalPoints
    orderIndex := min e.orderIndex g.orderIndex
    image := fillStr e.image g.image
    type := fillStr e.type g.type
    race := fillStr e.race g.race
    displayType :=
      if e.displayType.isEmpty ∧ ¬ g.displayType.isEmpty then g.displayType
      else e.displayType
    desc := fillStr e.desc g.desc
    level := fillNat e.level g.level
    linkValue := fillNat e.linkValue g.linkValue }

/-- Insert one raw group into the `merged` map.  The key is the group's
normalized display name (`toGroup` keys on `normalized::zone`, and the
zone component is constant within one `toGroup` call). -/
def mergeInto : List (List Char × DeckCardGroup) → DeckCardGroup →
    List (List Char × DeckCardGroup)
  | [], g => [(normalizeCardName g.name, g)]
  | (k, e) :: rest, g =>
    if k = normalizeCardName g.name then (k, mergeGroups e g) :: rest
    else (k, e) :: mergeInto rest g

/-- `toGroup`'s merge pass: fold the raw groups into the keyed map and
read the values back in insertion order. -/
def mergePass (raws : List DeckCardGroup) : List DeckCardGroup :=
  (raws.foldl mergeInto []).map (·.2)

structure SortMeta where
  priority : Nat
  sub : Nat
  level : Nat
  sortByLevel : Bool
  name : List Char
  order : Nat
deriving DecidableEq

/-- `monsterPriority` from src/App.tsx (`deckGroups` memo). -/
def monsterPriority (typeLabel : List Char) (zone : DeckSection) : Nat :=
  let basePriority :=
    if hasSub ("normal".toList) typeLabel ∧ ¬ hasSub ("pendulum".toList) typeLabel then 0
    else if hasSub ("effect".toList) typeLabel ∧ ¬ hasSub ("pendulum".toList) typeLabel ∧
        ¬ hasSub ("ritual".toList) typeLabel then 1
    else if hasSub ("pendulum".toList) typeLabel then 2
    else if hasSub ("ritual".toList) typeLabel then 3
    else 4
  if zone = DeckSection.extra then
    if hasSub ("fusion".toList) typeLabel then 5
    else if hasSub ("synchro".toList) typeLabel then 6
    else if hasSub ("xyz".toList) typeLabel then 7
    else if hasSub ("link".toList) typeLabel then 8
    else 9
  else basePriority

/-- `spellPriority` from src/App.tsx. -/
def spellPriority (raceLabel : List Char) : Nat :=
  if hasSub ("normal".toList) raceLabel then 0
  else if hasSub ("equip".toList) raceLabel then 1
  else if hasSub ("quick".toList) raceLabel then 2
  else if hasSub ("field".toList) raceLabel then 3
  else if hasSub ("ritual".toList) raceLabel then 4
  else if hasSub ("continuous".toList) raceLabel then 5
  else 6

/-- `trapPriority` from src/App.tsx. -/
def trapPriority (raceLabel : List Char) : Nat :=
  if hasSub ("normal".toList) raceLabel then 0
  else if hasSub ("counter".toList) raceLabel then 1
  else if hasSub ("continuous".toList) raceLabel then 2
  else 3

/-- `getSortMeta` from src/App.tsx.  `order` is the group's
`orderIndex` (always set by `toGroup`, so the `?? MAX_SAFE_INTEGER`
fallback never fires). -/
def getSortMeta (table : Nat → Option CardDetails) (zone : DeckSection)
    (card : DeckCardGroup) : SortMeta :=
  let info := table card.id
  let typeLabel := jsToLower (((info.bind (·.type)).orElse (fun _ => card.type)).getD [])
  let raceLabel := jsToLower (((info.bind (·.race)).orElse (fun _ => card.race)).getD [])
  let levelValue := ((info.bind (·.level)).orElse (fun _ => card.level)).getD
    ((((info.bind (·.linkValue)).orElse (fun _ => card.linkValue)).getD 0))
  let name := jsToLower card.name
  let order := card.orderIndex
  if card.id = 0 then ⟨0, 0, 0, false, name, order⟩
  else
    let isSpell := hasSub ("spell".toList) typeLabel
    let isTrap := hasSub ("trap".toList) typeLabel
    if ¬ isSpell ∧ ¬ isTrap then
      ⟨1, monsterPriority typeLabel zone, levelValue, true, name, order⟩
    else if isSpell then ⟨2, spellPriority raceLabel, 0, false, name, order⟩
    else if isTrap then ⟨3, trapPriority raceLabel, 0, false, name, order⟩
    else ⟨4, 0, levelValue, false, name, order⟩

/-- `compareCards` from src/App.tsx: priority, then sub-priority, then
name (`localeCompare`), then first-occurrence index. -/
def compareCards (table : Nat → Option CardDetails) (zone : DeckSection)
    (a b : DeckCardGroup) : Int :=
  let mA := getSortMeta table zone a
  let mB := getSortMeta table zone b
  if mA.priority ≠ mB.priority then (mA.priority : Int) - mB.priority
  else if mA.sub ≠ mB.sub then (mA.sub : Int) - mB.sub
  else
    let nameCompare := compareL mA.name mB.name
    if nameCompare ≠ 0 then nameCompare
    else (mA.order : Int) - mB.order

/-- `toGroup` from src/App.tsx: count pass, enrichment pass, merge pass,
then the comparator sort (`Array.prototype.sort`, required to produce a
sequence ordered by the comparator; distinct merged groups never compare
equal under `compareCards` — their `orderIndex` values differ — so every
correct sort, stable or not, yields the same output, modelled here by
insertion sort). -/
def toGroup (table : Nat → Option CardDetails)
    (pointEntries : List (List Char × Nat)) (zone : DeckSection)
    (ids : List Nat) : List DeckCardGroup :=
  let raws := (countPass ids).map (mkRawGroup table pointEntries zone)
  List.insertionSort (fun a b => compareCards table zone a b ≤ 0) (mergePass raws)

structure DeckGroups where
  main : List DeckCardGroup
  extra : List DeckCardGroup
  side : List DeckCardGroup
deriving DecidableEq

/-- The `deckGroups` memo of src/App.tsx restricted to its pure inputs. -/
def deckGroups (table : Nat → Option CardDetails)
    (pointEntries : List (List Char × Nat))
    (main extra side : List Nat) : DeckGroups :=
  ⟨toGroup table pointEntries DeckSection.main main,
   toGroup table pointEntries DeckSection.extra extra,
   toGroup table pointEntries DeckSection.side side⟩

/-- The `totalPoints` memo of src/App.tsx: sum of `totalPoints` over all
groups of all three sections. -/
def deckTotalPoints (groups : DeckGroups) : Nat :=
  ((groups.main ++ groups.extra ++ groups.side).map (·.totalPoints)).sum

/-! ## Missing-id resolution (src/App.tsx) -/

/-- `findSlots` inside the `missingSlots` memo: the indices whose id is
`<= 0`, in ascending order. -/
def findSlots : List Nat → List Nat
  | [] => []
  | id :: rest =>
    if id ≤ 0 then 0 :: (findSlots rest).map (· + 1)
    else (findSlots rest).map (· + 1)

/-- A deck as three plain id sequences (`SimpleDeck` in src/lib/ydke.ts). -/
structure SimpleDeck where
  main : List Nat
  extra : List Nat
  side : List Nat
deriving DecidableEq

def zoneGet (d : SimpleDeck) : DeckSection → List Nat
  | .main => d.main
  | .extra => d.extra
  | .side => d.side

def zoneSet (d : SimpleDeck) (z : DeckSection) (l : List Nat) : SimpleDeck :=
  match z with
  | .main => { d with main := l }
  | .extra => { d with extra := l }
  | .side => { d with side := l }

/-- The substitution loop of `handleMissingIdResolve`:
`updated[zone][slots[index]] = replacements[index]` for
`index < min(replacements.length, slots.length)` — a fold of `List.set`
over the zipped (slot, replacement) pairs. -/
def setAll (l : List Nat) (ps : List (Nat × Nat)) : List Nat :=
  ps.foldl (fun acc p => acc.set p.1 p.2) l

/-- The deck update performed by `handleMissingIdResolve` in src/App.tsx:
with no placeholder slots, or no chosen replacements, the handler returns
without changing the deck; otherwise the first `min(k, missingCount)`
replacements are written into the earliest placeholder positions of the
chosen zone and the result is re-encoded with `buildYdke`. -/
def applyMissingResolve (deck : SimpleDeck) (zone : DeckSection)
    (replacements : List Nat) : SimpleDeck :=
  let slots := findSlots (zoneGet deck zone)
  if slots = [] then deck
  else if replacements = [] then deck
  else zoneSet deck zone (setAll (zoneGet deck zone) (slots.zip replacements))

/-! ## Base64 lemmas -/

/-- The number of `0` entries of a section that occur after the section's
first non-zero entry: what the decoder's inferred-slot loop counts. -/
def zerosAfterNonzero (l : List Nat) : Nat := (l.dropWhile (· == 0)).count 0

instance {ε α : Type} [DecidableEq ε] [DecidableEq α] :
    DecidableEq (Except ε α) := fun x y =>
  match x, y with
  | .ok a, .ok b => decidable_of_iff (a = b) (by simp)
  | .error a, .error b => decidable_of_iff (a = b) (by simp)
  | .ok _, .error _ => isFalse (fun h => Except.noConfusion h)
  | .error _, .ok _ => isFalse (fun h => Except.noConfusion h)

/-- Reference walk for the substitution loop: replace placeholder (`<= 0`)
entries left to right by successive replacements until these run out. -/
def fillZ : List Nat → List Nat → List Nat
  | [], _ => []
  | x :: xs, [] => x :: fillZ xs []
  | x :: xs, r :: rs =>
    if x ≤ 0 then r :: fillZ xs rs else x :: fillZ xs (r :: rs)

/-- Coherence facts carried by every entry of the merged map: the key is
the group's normalized name, per-copy points and the not-in-list flag come
from the point-table lookup at that key, and the total is per-copy times
count. -/
def entryInv (pointEntries : List (List Char × Nat))
    (p : List Char × DeckCardGroup) : Prop :=
  p.1 = normalizeCardName p.2.name ∧
  p.2.pointsPerCopy = (jsMapGet pointEntries p.1).getD 0 ∧
  p.2.totalPoints = p.2.pointsPerCopy * p.2.count ∧
  p.2.notInList = (jsMapGet pointEntries p.1).isNone

def defaultGroup : DeckCardGroup :=
  { id := 0, count := 0, zone := DeckSection.main, name := [], image := none,
    type := none, race := none, displayType := [], desc := none, level := none,
    linkValue := none, orderIndex := 0, linkUrl := none, pointsPerCopy := 0,
    totalPoints := 0, missingInfo := true, notInList := true }

def scenarioTable : Nat → Option CardDetails := fun id =>
  if id = 5 then some { name := "Card A".toList }
  else if id = 7 then some { name := "Card B".toList }
  else none

def scenarioPoints : List (List Char × Nat) :=
  buildPointEntries [⟨"Card A".toList, 10⟩, ⟨"Card B".toList, 3⟩]

def potTable : Nat → Option CardDetails := fun id =>
  if id = 55144522 then some { name := "Pot of Greed".toList } else none

def potPoints : List (List Char × Nat) :=
  buildPointEntries [⟨"Pot of Greed".toList, 0⟩]

/-- The order actually realised by `compareCards`, stated on the sort
metadata as a lexicographic predicate (the characterization the amended
C5 statement asserts): category priority ascending, then sub-priority
bucket ascending, then name ascending in code-point order, then
first-occurrence index ascending. -/
def sortKeyLe (x y : SortMeta) : Prop :=
  x.priority < y.priority ∨
    (x.priority = y.priority ∧
      (x.sub < y.sub ∨
        (x.sub = y.sub ∧
          (compareL x.name y.name < 0 ∨
            (x.name = y.name ∧ x.order ≤ y.order)))))

def sortTable : Nat → Option CardDetails := fun id =>
  if id = 7 then some { name := "alpha".toList, type := some "Normal Monster".toList }
  else none

/-- Rank of a group in the category order the original claim asserts:
monsters 0, spells 1, traps 2, unresolved entries 3 (claimed to come
last).  Stated via the code's own classification (`getSortMeta`
priorities: 0 unresolved, 1 monster, 2 spell, 3 trap). -/
def claimCatRank (table : Nat → Option CardDetails) (zone : DeckSection)
    (card : DeckCardGroup) : Nat :=
  match (getSortMeta table zone card).priority with
  | 0 => 3
  | p => p - 1

theorem sextetToChar_spec : ∀ n, n < 64 →
    sextetToChar n ∈ b64Alphabet ∧ charToSextet (sextetToChar n) = some n := by
  decide

theorem b64Alphabet_chars : ∀ c ∈ b64Alphabet,
    isJsWs c = false ∧ c ≠ '!' ∧ c ≠ '=' ∧ c ≠ '-' ∧ c ≠ '_' := by
  decide

theorem sextetToChar_ne_pad {n : Nat} (h : n < 64) : sextetToChar n ≠ '=' :=
  (b64Alphabet_chars _ (sextetToChar_spec n h).1).2.2.1

theorem atob_btoa : ∀ bs : List Nat, (∀ b ∈ bs, b < 256) →
    atobChars (btoaBytes bs) = some bs := by
  intro bs
  induction bs using btoaBytes.induct with
  | case1 =>
    intro _
    simp [btoaBytes, atobChars]
  | case2 b1 =>
    intro h
    have hb1 : b1 < 256 := h b1 (by simp)
    simp only [btoaBytes, atobChars]
    rw [(sextetToChar_spec (b1 / 4) (by omega)).2,
        (sextetToChar_spec (b1 % 4 * 16) (by omega)).2]
    dsimp only
    simp only [and_self, if_true]
    have e1 : b1 / 4 * 4 + b1 % 4 * 16 / 16 = b1 := by omega
    rw [e1]
  | case3 b1 b2 =>
    intro h
    have hb1 : b1 < 256 := h b1 (by simp)
    have hb2 : b2 < 256 := h b2 (by simp)
    simp only [btoaBytes, atobChars]
    rw [(sextetToChar_spec (b1 / 4) (by omega)).2,
        (sextetToChar_spec (b1 % 4 * 16 + b2 / 16) (by omega)).2]
    dsimp only
    rw [if_neg (sextetToChar_ne_pad (n := b2 % 16 * 4) (by omega))]
    rw [(sextetToChar_spec (b2 % 16 * 4) (by omega)).2]
    dsimp only
    simp only [if_true]
    have e1 : b1 / 4 * 4 + (b1 % 4 * 16 + b2 / 16) / 16 = b1 := by omega
    have e2 : (b1 % 4 * 16 + b2 / 16) % 16 * 16 + b2 % 16 * 4 / 4 = b2 := by omega
    rw [e1, e2]
  | case4 b1 b2 b3 rest ih =>
    intro h
    have hb1 : b1 < 256 := h b1 (by simp)
    have hb2 : b2 < 256 := h b2 (by simp)
    have hb3 : b3 < 256 := h b3 (by simp)
    have hrest : ∀ b ∈ rest, b < 256 := fun b hb => h b (by simp [hb])
    simp only [btoaBytes, atobChars]
    rw [(sextetToChar_spec (b1 / 4) (by omega)).2,
        (sextetToChar_spec (b1 % 4 * 16 + b2 / 16) (by omega)).2]
    dsimp only
    rw [if_neg (sextetToChar_ne_pad (n := b2 % 16 * 4 + b3 / 64) (by omega))]
    rw [(sextetToChar_spec (b2 % 16 * 4 + b3 / 64) (by omega)).2]
    dsimp only
    rw [if_neg (sextetToChar_ne_pad (n := b3 % 64) (by omega))]
    rw [(sextetToChar_spec (b3 % 64) (by omega)).2, ih hrest]
    dsimp only
    have e1 : b1 / 4 * 4 + (b1 % 4 * 16 + b2 / 16) / 16 = b1 := by omega
    have e2 : (b1 % 4 * 16 + b2 / 16) % 16 * 16 + (b2 % 16 * 4 + b3 / 64) / 4 = b2 := by
      omega
    have e3 : (b2 % 16 * 4 + b3 / 64) % 4 * 64 + b3 % 64 = b3 := by omega
    rw [e1, e2, e3]

theorem btoaBytes_length_mod (bs : List Nat) : (btoaBytes bs).length % 4 = 0 := by
  induction bs using btoaBytes.induct with
  | case1 => simp [btoaBytes]
  | case2 b1 => simp [btoaBytes]
  | case3 b1 b2 => simp [btoaBytes]
  | case4 b1 b2 b3 rest ih => simp [btoaBytes]; omega

theorem btoaBytes_mem (bs : List Nat) (h : ∀ b ∈ bs, b < 256) :
    ∀ c ∈ btoaBytes bs, c ∈ b64Alphabet ∨ c = '=' := by
  induction bs using btoaBytes.induct with
  | case1 => simp [btoaBytes]
  | case2 b1 =>
    have hb1 : b1 < 256 := h b1 (by simp)
    intro c hc
    simp only [btoaBytes, List.mem_cons, List.mem_singleton] at hc
    rcases hc with rfl | rfl | rfl | rfl | h'
    · exact Or.inl (sextetToChar_spec _ (by omega)).1
    · exact Or.inl (sextetToChar_spec _ (by omega)).1
    · exact Or.inr rfl
    · exact Or.inr rfl
    · simp at h'
  | case3 b1 b2 =>
    have hb1 : b1 < 256 := h b1 (by simp)
    have hb2 : b2 < 256 := h b2 (by simp)
    intro c hc
    simp only [btoaBytes, List.mem_cons, List.mem_singleton] at hc
    rcases hc with rfl | rfl | rfl | rfl | h'
    · exact Or.inl (sextetToChar_spec _ (by omega)).1
    · exact Or.inl (sextetToChar_spec _ (by omega)).1
    · exact Or.inl (sextetToChar_spec _ (by omega)).1
    · exact Or.inr rfl
    · simp at h'
  | case4 b1 b2 b3 rest ih =>
    have hb1 : b1 < 256 := h b1 (by simp)
    have hb2 : b2 < 256 := h b2 (by simp)
    have hb3 : b3 < 256 := h b3 (by simp)
    have hrest : ∀ b ∈ rest, b < 256 := fun b hb => h b (by simp [hb])
    intro c hc
    simp only [btoaBytes, List.mem_cons] at hc
    rcases hc with rfl | rfl | rfl | rfl | h'
    · exact Or.inl (sextetToChar_spec _ (by omega)).1
    · exact Or.inl (sextetToChar_spec _ (by omega)).1
    · exact Or.inl (sextetToChar_spec _ (by omega)).1
    · exact Or.inl (sextetToChar_spec _ (by omega)).1
    · exact ih hrest c h'

theorem btoaBytes_head (b1 : Nat) (rest : List Nat) :
    ∃ t, btoaBytes (b1 :: rest) = sextetToChar (b1 / 4) :: t := by
  match rest with
  | [] => exact ⟨_, rfl⟩
  | [b2] => exact ⟨_, rfl⟩
  | b2 :: b3 :: r => exact ⟨_, rfl⟩

theorem map_self_of_fixed {α : Type} (f : α → α) (l : List α)
    (h : ∀ x ∈ l, f x = x) : l.map f = l := by
  induction l with
  | nil => rfl
  | cons a t ih =>
    simp only [List.map_cons, h a (by simp)]
    rw [ih (fun x hx => h x (by simp [hx]))]

theorem normalizeB64_btoa (bs : List Nat) (h : ∀ b ∈ bs, b < 256) :
    normalizeB64 (btoaBytes bs) = btoaBytes bs := by
  unfold normalizeB64
  apply map_self_of_fixed
  intro c hc
  rcases btoaBytes_mem bs h c hc with hmem | rfl
  · have hd := (b64Alphabet_chars c hmem).2.2.2.1
    have hu := (b64Alphabet_chars c hmem).2.2.2.2
    simp [normalizeB64Char, hd, hu]
  · rfl

theorem padB64_btoa (bs : List Nat) :
    padB64 (btoaBytes bs) = btoaBytes bs := by
  unfold padB64
  rw [btoaBytes_length_mod]
  simp

/-- Decoding the standard (padded) base64 of a byte list recovers it. -/
theorem base64ToBytes_std (bs : List Nat) (h : ∀ b ∈ bs, b < 256) :
    base64ToBytes (bytesToBase64Standard bs) = some bs := by
  unfold base64ToBytes bytesToBase64Standard
  rw [normalizeB64_btoa bs h, padB64_btoa bs, atob_btoa bs h]

theorem normalize_urlify : ∀ c ∈ b64Alphabet,
    normalizeB64Char (slashToUnderscore (plusToMinus c)) = c := by
  decide

theorem stripEq_append (l1 l2 : List Char) (h : stripEq l2 ≠ []) :
    stripEq (l1 ++ l2) = l1 ++ stripEq l2 := by
  unfold stripEq at *
  rw [List.reverse_append, List.dropWhile_append]
  have h2 : ¬ (l2.reverse.dropWhile (· = '=')).isEmpty := by
    intro hc
    apply h
    simp only [List.isEmpty_iff] at hc
    rw [hc]
    rfl
  rw [if_neg h2, List.reverse_append]
  simp

theorem stripEq_ne_nil_of_head {l : List Char} {c : Char}
    (hhead : l.head? = some c) (hc : c ≠ '=') : stripEq l ≠ [] := by
  intro hcon
  unfold stripEq at hcon
  have h0 : l.reverse.dropWhile (· = '=') = [] := by
    have := congrArg List.reverse hcon
    simpa using this
  rw [List.dropWhile_eq_nil_iff] at h0
  have hmem : c ∈ l.reverse := by
    rw [List.mem_reverse]
    exact List.mem_of_mem_head? hhead
  have := h0 c hmem
  simp at this
  exact hc this

theorem stripEq_last_ne {l : List Char} {c : Char} (hc : c ≠ '=') :
    stripEq (l ++ [c]) = l ++ [c] := by
  unfold stripEq
  rw [List.reverse_append]
  simp only [List.reverse_cons, List.reverse_nil, List.nil_append,
    List.singleton_append, List.dropWhile_cons]
  rw [if_neg (by simpa using hc)]
  simp

theorem padB64_append_of_mod (l1 l2 : List Char) (h : l1.length % 4 = 0) :
    padB64 (l1 ++ l2) = l1 ++ padB64 l2 := by
  unfold padB64
  have hmod : (l1 ++ l2).length % 4 = l2.length % 4 := by
    rw [List.length_append]
    omega
  rw [hmod, List.append_assoc]

/-- Re-padding the padding-stripped `btoa` output restores it. -/
theorem padB64_stripEq_btoa (bs : List Nat) (h : ∀ b ∈ bs, b < 256) :
    padB64 (stripEq (btoaBytes bs)) = btoaBytes bs := by
  induction bs using btoaBytes.induct with
  | case1 => simp [btoaBytes, stripEq, padB64]
  | case2 b1 =>
    show padB64 (stripEq ([sextetToChar (b1 / 4)] ++
      [sextetToChar (b1 % 4 * 16), '=', '='])) = _
    unfold stripEq
    simp only [List.reverse_append]
    rw [show ([sextetToChar (b1 % 4 * 16), '=', '=']).reverse =
      ['=', '=', sextetToChar (b1 % 4 * 16)] from rfl]
    simp only [List.cons_append, List.dropWhile_cons]
    rw [if_pos (by simp), if_pos (by simp),
        if_neg (by simpa using sextetToChar_ne_pad (n := b1 % 4 * 16) (by omega))]
    simp [padB64, btoaBytes]
  | case3 b1 b2 =>
    show padB64 (stripEq ([sextetToChar (b1 / 4),
      sextetToChar (b1 % 4 * 16 + b2 / 16)] ++ [sextetToChar (b2 % 16 * 4), '='])) = _
    unfold stripEq
    simp only [List.reverse_append]
    rw [show ([sextetToChar (b2 % 16 * 4), '=']).reverse =
      ['=', sextetToChar (b2 % 16 * 4)] from rfl]
    simp only [List.cons_append, List.dropWhile_cons]
    rw [if_pos (by simp),
        if_neg (by simpa using sextetToChar_ne_pad (n := b2 % 16 * 4) (by omega))]
    simp [padB64, btoaBytes]
  | case4 b1 b2 b3 rest ih =>
    have hrest : ∀ b ∈ rest, b < 256 := fun b hb => h b (by simp [hb])
    by_cases hr : rest = []
    · subst hr
      show padB64 (stripEq ([sextetToChar (b1 / 4),
        sextetToChar (b1 % 4 * 16 + b2 / 16),
        sextetToChar (b2 % 16 * 4 + b3 / 64)] ++ [sextetToChar (b3 % 64)])) = _
      rw [stripEq_last_ne (sextetToChar_ne_pad (n := b3 % 64) (by omega))]
      simp [padB64, btoaBytes]
    · obtain ⟨hd, tl, rfl⟩ := List.exists_cons_of_ne_nil hr
      have hhd : hd < 256 := hrest hd (by simp)
      obtain ⟨t, ht⟩ := btoaBytes_head hd tl
      have hhead : (btoaBytes (hd :: tl)).head? = some (sextetToChar (hd / 4)) := by
        rw [ht]; rfl
      have hne : stripEq (btoaBytes (hd :: tl)) ≠ [] :=
        stripEq_ne_nil_of_head hhead (sextetToChar_ne_pad (by omega))
      show padB64 (stripEq ([sextetToChar (b1 / 4),
        sextetToChar (b1 % 4 * 16 + b2 / 16),
        sextetToChar (b2 % 16 * 4 + b3 / 64), sextetToChar (b3 % 64)] ++
        btoaBytes (hd :: tl))) = _
      rw [stripEq_append _ _ hne, padB64_append_of_mod _ _ (by simp), ih hrest]
      rfl

theorem eqPad_comm_maps : ∀ c : Char,
    (slashToUnderscore (plusToMinus c) = '=') = (c = '=') := by
  intro c
  unfold slashToUnderscore plusToMinus
  by_cases h1 : c = '+' <;> by_cases h2 : c = '/' <;> simp [h1, h2]

theorem stripEq_map_urlify (l : List Char) :
    stripEq (l.map (fun c => slashToUnderscore (plusToMinus c))) =
    (stripEq l).map (fun c => slashToUnderscore (plusToMinus c)) := by
  have hfun : ((fun x : Char => decide (x = '=')) ∘
      fun c => slashToUnderscore (plusToMinus c)) =
      (fun x : Char => decide (x = '=')) := by
    funext c
    simp [eqPad_comm_maps c]
  unfold stripEq
  rw [← List.map_reverse, List.dropWhile_map, hfun, ← List.map_reverse]

/-- Decoding the URL-safe unpadded base64 of a byte list recovers it. -/
theorem base64ToBytes_url (bs : List Nat) (h : ∀ b ∈ bs, b < 256) :
    base64ToBytes (bytesToBase64Url bs) = some bs := by
  unfold base64ToBytes bytesToBase64Url
  rw [List.map_map]
  have hmm : (List.map (slashToUnderscore ∘ plusToMinus) (btoaBytes bs)) =
      (btoaBytes bs).map (fun c => slashToUnderscore (plusToMinus c)) := rfl
  rw [hmm, stripEq_map_urlify]
  have hfix : normalizeB64 ((stripEq (btoaBytes bs)).map
      (fun c => slashToUnderscore (plusToMinus c))) = stripEq (btoaBytes bs) := by
    unfold normalizeB64
    rw [List.map_map]
    apply map_self_of_fixed
    intro c hc
    have hcmem : c ∈ btoaBytes bs := by
      unfold stripEq at hc
      rw [List.mem_reverse] at hc
      have h2 : c ∈ (btoaBytes bs).reverse :=
        List.Sublist.mem hc (List.dropWhile_sublist _)
      rwa [List.mem_reverse] at h2
    rcases btoaBytes_mem bs h c hcmem with hmem | rfl
    · exact normalize_urlify c hmem
    · rfl
  rw [hfix, padB64_stripEq_btoa bs h, atob_btoa bs h]

/-! ## Deck-codec lemmas -/

theorem u32leBytes_lt (id : Nat) : ∀ b ∈ u32leBytes id, b < 256 := by
  intro b hb
  simp only [u32leBytes, List.mem_cons, List.mem_singleton] at hb
  rcases hb with rfl | rfl | rfl | rfl | h
  · omega
  · omega
  · omega
  · omega
  · simp at h

theorem sectionBytes_lt (ids : List Nat) : ∀ b ∈ sectionBytes ids, b < 256 := by
  induction ids with
  | nil => simp [sectionBytes]
  | cons id rest ih =>
    intro b hb
    simp only [sectionBytes, List.mem_append] at hb
    rcases hb with hb | hb
    · exact u32leBytes_lt id b hb
    · exact ih b hb

theorem sectionBytes_length (ids : List Nat) :
    (sectionBytes ids).length = 4 * ids.length := by
  induction ids with
  | nil => simp [sectionBytes]
  | cons id rest ih =>
    simp only [sectionBytes, List.length_append, ih, u32leBytes]
    simp
    omega

theorem readU32s_chunk (id : Nat) (rest : List Nat) :
    readU32s (u32leBytes id ++ rest) = (id % 4294967296) :: readU32s rest := by
  simp only [u32leBytes, List.cons_append, List.nil_append, readU32s]
  congr 1
  omega

theorem readU32s_sectionBytes (ids : List Nat)
    (h : ∀ id ∈ ids, id < 4294967296) : readU32s (sectionBytes ids) = ids := by
  induction ids with
  | nil => rfl
  | cons id rest ih =>
    have hid : id < 4294967296 := h id (by simp)
    simp only [sectionBytes, readU32s_chunk, Nat.mod_eq_of_lt hid]
    rw [ih (fun x hx => h x (by simp [hx]))]

theorem encodeSection_chars (ids : List Nat) :
    ∀ c ∈ encodeSection ids, c ∈ b64Alphabet ∨ c = '=' := by
  unfold encodeSection
  split
  · simp
  · exact btoaBytes_mem _ (sectionBytes_lt ids)

theorem encodeSection_not_ws (ids : List Nat) :
    ∀ c ∈ encodeSection ids, isJsWs c = false := by
  intro c hc
  rcases encodeSection_chars ids c hc with hmem | rfl
  · exact (b64Alphabet_chars c hmem).1
  · decide

theorem encodeSection_not_bang (ids : List Nat) : '!' ∉ encodeSection ids := by
  intro hc
  rcases encodeSection_chars ids '!' hc with hmem | h
  · exact (b64Alphabet_chars _ hmem).2.1 rfl
  · simp at h

theorem dropWhile_eq_self_of {α : Type} (p : α → Bool) (l : List α)
    (h : ∀ c ∈ l, p c = false) : l.dropWhile p = l := by
  cases l with
  | nil => rfl
  | cons c t =>
    rw [List.dropWhile_cons, if_neg]
    simp [h c (by simp)]

theorem jsTrim_eq_self (l : List Char) (h : ∀ c ∈ l, isJsWs c = false) :
    jsTrim l = l := by
  unfold jsTrim
  rw [dropWhile_eq_self_of _ _ h,
      dropWhile_eq_self_of _ _ (fun c hc => h c (List.mem_reverse.mp hc)),
      List.reverse_reverse]

theorem filter_eq_self_of {α : Type} (p : α → Bool) (l : List α)
    (h : ∀ c ∈ l, p c = true) : l.filter p = l := by
  induction l with
  | nil => rfl
  | cons c t ih =>
    rw [List.filter_cons, if_pos (h c (by simp))]
    rw [ih (fun x hx => h x (by simp [hx]))]

theorem jsSplit_append (a r : List Char) (h : '!' ∉ a) :
    jsSplit '!' (a ++ '!' :: r) = a :: jsSplit '!' r := by
  induction a with
  | nil => simp [jsSplit]
  | cons c t ih =>
    have hc : c ≠ '!' := fun hcc => h (by simp [hcc])
    have ht : '!' ∉ t := fun htt => h (by simp [htt])
    simp only [List.cons_append, jsSplit, if_neg hc]
    rw [show t.append ('!' :: r) = t ++ '!' :: r from rfl, ih ht]

theorem jsSplit_single (a : List Char) (h : '!' ∉ a) :
    jsSplit '!' a = [a] := by
  induction a with
  | nil => rfl
  | cons c t ih =>
    have hc : c ≠ '!' := fun hcc => h (by simp [hcc])
    have ht : '!' ∉ t := fun htt => h (by simp [htt])
    simp only [jsSplit, if_neg hc, ih ht]

theorem encodeSection_ne_nil_of (ids : List Nat) (h : ids ≠ []) :
    encodeSection ids ≠ [] := by
  obtain ⟨hd, tl, rfl⟩ := List.exists_cons_of_ne_nil h
  unfold encodeSection bytesToBase64Standard
  rw [if_neg (by simp)]
  have hsec : sectionBytes (hd :: tl) =
      (hd % 4294967296 % 256) :: ((hd % 4294967296) / 256 % 256) ::
      ((hd % 4294967296) / 65536 % 256) :: ((hd % 4294967296) / 16777216 % 256) ::
      sectionBytes tl := by
    simp [sectionBytes, u32leBytes]
  rw [hsec]
  obtain ⟨t, ht⟩ := btoaBytes_head _ _
  rw [ht]
  simp

/-- `decodeSection` inverts `encodeSection`. -/
theorem decodeSection_encodeSection (ids : List Nat)
    (h : ∀ id ∈ ids, id < 4294967296) :
    decodeSection (encodeSection ids) = .ok ⟨ids, countInferred 0 ids⟩ := by
  by_cases hnil : ids = []
  · subst hnil
    rfl
  · unfold decodeSection
    rw [if_neg (encodeSection_ne_nil_of ids hnil)]
    have henc : encodeSection ids = bytesToBase64Standard (sectionBytes ids) := by
      unfold encodeSection
      rw [if_neg hnil]
    rw [henc, base64ToBytes_std _ (sectionBytes_lt ids)]
    dsimp only
    rw [sectionBytes_length ids]
    rw [if_neg (by omega)]
    rw [readU32s_sectionBytes ids h]

theorem ydkePrefix_toList : "ydke://".toList = ['y', 'd', 'k', 'e', ':', '/', '/'] := rfl

theorem jsToLower_ydkePrefix :
    jsToLower ("ydke://".toList) = "ydke://".toList := by decide

/-- The generalized decode-of-encode fact: `parseYdke` of a built deck-code
URI, possibly followed by `!` and further whitespace-free junk (which the
parser ignores), recovers the three id sequences and the inferred count. -/
theorem parseYdke_build_gen (m e s : List Nat) (tail : List Char)
    (hids : ∀ id ∈ m ++ e ++ s, id < 4294967296)
    (htail : ∀ c ∈ tail, isJsWs c = false)
    (hcase : tail = [] ∨ ∃ junk, tail = '!' :: junk) :
    parseYdke (buildYdke m e s ++ tail) =
      .ok ⟨m, e, s,
        if 0 < countInferred 0 m + countInferred 0 e + countInferred 0 s
          then some true else none,
        if countInferred 0 m + countInferred 0 e + countInferred 0 s ≠ 0
          then some (countInferred 0 m + countInferred 0 e + countInferred 0 s)
          else none⟩ := by
  have hm : ∀ id ∈ m, id < 4294967296 := fun id hid => hids id (by simp [hid])
  have he : ∀ id ∈ e, id < 4294967296 := fun id hid => hids id (by simp [hid])
  have hs : ∀ id ∈ s, id < 4294967296 := fun id hid => hids id (by simp [hid])
  set em := encodeSection m with hem
  set ee := encodeSection e with hee
  set es := encodeSection s with hes
  have hp : buildYdke m e s ++ tail =
      "ydke://".toList ++ (em ++ '!' :: ee ++ '!' :: es ++ tail) := by
    unfold buildYdke
    simp [List.append_assoc]
  have hpayload_nws : ∀ c ∈ em ++ '!' :: ee ++ '!' :: es ++ tail,
      isJsWs c = false := by
    intro c hc
    rcases List.mem_append.mp hc with hc1 | hc8
    swap
    · exact htail c hc8
    rcases List.mem_append.mp hc1 with hc2 | hc5
    swap
    · rcases List.mem_cons.mp hc5 with rfl | hc6
      · decide
      · exact encodeSection_not_ws s c hc6
    rcases List.mem_append.mp hc2 with hc3 | hc4
    · exact encodeSection_not_ws m c hc3
    · rcases List.mem_cons.mp hc4 with rfl | hc7
      · decide
      · exact encodeSection_not_ws e c hc7
  have hall_nws : ∀ c ∈ buildYdke m e s ++ tail, isJsWs c = false := by
    intro c hc
    rw [hp] at hc
    rcases List.mem_append.mp hc with hc1 | hc2
    · have hpre : ∀ x ∈ "ydke://".toList, isJsWs x = false := by decide
      exact hpre c hc1
    · exact hpayload_nws c hc2
  unfold parseYdke
  rw [jsTrim_eq_self _ hall_nws]
  rw [hp]
  have hne_nil : ¬("ydke://".toList ++ (em ++ '!' :: ee ++ '!' :: es ++ tail) = []) := by
    rw [ydkePrefix_toList]
    simp
  rw [if_neg hne_nil]
  have hlower : jsToLower ("ydke://".toList ++ (em ++ '!' :: ee ++ '!' :: es ++ tail)) =
      "ydke://".toList ++ jsToLower (em ++ '!' :: ee ++ '!' :: es ++ tail) := by
    unfold jsToLower
    rw [List.map_append]
    congr 1
  rw [hlower]
  have hpref : ("ydke://".toList).isPrefixOf
      ("ydke://".toList ++ jsToLower (em ++ '!' :: ee ++ '!' :: es ++ tail)) = true := by
    rw [List.isPrefixOf_iff_prefix]
    exact List.prefix_append _ _
  have hidx : indexOfSub ("ydke://".toList)
      ("ydke://".toList ++ jsToLower (em ++ '!' :: ee ++ '!' :: es ++ tail)) = some 0 := by
    rw [ydkePrefix_toList] at hpref ⊢
    simp only [List.cons_append, List.nil_append] at hpref ⊢
    unfold indexOfSub
    rw [if_pos hpref]
  rw [hidx]
  dsimp only
  have hdrop : List.drop (0 + 7) ("ydke://".toList ++ (em ++ '!' :: ee ++ '!' :: es ++ tail)) =
      em ++ '!' :: ee ++ '!' :: es ++ tail := by
    rw [ydkePrefix_toList]
    simp
  rw [hdrop]
  rw [filter_eq_self_of _ _ (by intro c hc; simp [hpayload_nws c hc])]
  have hsections : jsSplit '!' (em ++ '!' :: ee ++ '!' :: es ++ tail) =
      em :: jsSplit '!' (ee ++ '!' :: es ++ tail) := by
    rw [show em ++ '!' :: ee ++ '!' :: es ++ tail =
      em ++ '!' :: (ee ++ '!' :: es ++ tail) by simp]
    exact jsSplit_append _ _ (encodeSection_not_bang m)
  have hsections2 : jsSplit '!' (ee ++ '!' :: es ++ tail) =
      ee :: jsSplit '!' (es ++ tail) := by
    rw [show ee ++ '!' :: es ++ tail = ee ++ '!' :: (es ++ tail) by simp]
    exact jsSplit_append _ _ (encodeSection_not_bang e)
  have hsections3 : ∃ rest, jsSplit '!' (es ++ tail) = es :: rest := by
    rcases hcase with rfl | ⟨junk, rfl⟩
    · rw [List.append_nil]
      exact ⟨[], jsSplit_single es (encodeSection_not_bang s)⟩
    · exact ⟨jsSplit '!' junk, jsSplit_append _ _ (encodeSection_not_bang s)⟩
  obtain ⟨rest, hrest⟩ := hsections3
  rw [hsections, hsections2, hrest]
  rw [if_neg (by simp)]
  simp only [List.getD, List.get?_cons_zero, List.get?_cons_succ,
    Option.getD_some]
  rw [hem, hee, hes]
  rw [decodeSection_encodeSection m hm, decodeSection_encodeSection e he,
      decodeSection_encodeSection s hs]
  rfl

theorem countInferred_of_ne (lastId : Nat) (h : lastId ≠ 0) (l : List Nat) :
    countInferred lastId l = l.count 0 := by
  induction l generalizing lastId with
  | nil => simp [countInferred]
  | cons id rest ih =>
    by_cases hid : id = 0
    · subst hid
      simp [countInferred, h, ih lastId h, List.count_cons]
      omega
    · simp [countInferred, hid, ih id hid, List.count_cons, Ne.symm hid]

theorem countInferred_eq_zerosAfterNonzero (l : List Nat) :
    countInferred 0 l = zerosAfterNonzero l := by
  induction l with
  | nil => rfl
  | cons id rest ih =>
    by_cases hid : id = 0
    · subst hid
      simp [countInferred, zerosAfterNonzero, List.dropWhile_cons] at ih ⊢
      exact ih
    · simp only [countInferred, if_neg hid, zerosAfterNonzero,
        List.dropWhile_cons]
      rw [if_neg (by simp [hid]), countInferred_of_ne id hid rest,
          List.count_cons]
      simp [Ne.symm hid, hid]

/-- C1: for every deck of three sequences of unsigned 32-bit CardIds
(including 0 and values above 2^31), decoding the built deck-code URI
returns the same three sequences, preserving order and duplicates. -/
theorem parse_build_roundtrip (m e s : List Nat)
    (h : ∀ id ∈ m ++ e ++ s, id < 4294967296) :
    (parseYdke (buildYdke m e s)).map (fun d => (d.main, d.extra, d.side)) =
      .ok (m, e, s) := by
  have hgen := parseYdke_build_gen m e s [] h (by simp) (Or.inl rfl)
  rw [List.append_nil] at hgen
  rw [hgen]
  rfl

theorem parse_build_roundtrip_witness :
    (∀ id ∈ ([1, 0, 4294967295] ++ [2] ++ ([] : List Nat)), id < 4294967296) ∧
    (parseYdke (buildYdke [1, 0, 4294967295] [2] [])).map
      (fun d => (d.main, d.extra, d.side)) = .ok ([1, 0, 4294967295], [2], []) :=
  ⟨by decide, parse_build_roundtrip [1, 0, 4294967295] [2] [] (by decide)⟩

/-- C6 counterexample: `ydke://AAAAAA==!!` decodes to a main section
holding one CardId 0 (one placeholder entry in total), yet the advisory
`inferredCardCount` is absent (`undefined` in the source), not 1: the
loop does not count a 0 that precedes every non-zero id of its section. -/
theorem parseYdke_inferred_count_counterexample :
    parseYdke ("ydke://AAAAAA==!!".toList) =
      .ok ⟨[0], [], [], none, none⟩ ∧
    (([0] : List Nat) ++ [] ++ []).count 0 = 1 ∧
    (none : Option Nat) ≠ some ((([0] : List Nat) ++ [] ++ []).count 0) := by
  refine ⟨by decide, by decide, by decide⟩

/-- C6 amended: decoding a built deck-code URI preserves every CardId 0
entry in place, and the advisory `inferredCardCount` equals the total
number of 0 entries that occur *after the first non-zero id of their
section* (section-leading zeros are not counted); the field is absent
when that total is zero, and `hasInferredIds` is `true` exactly when it
is positive. -/
theorem parseYdke_inferred_count (m e s : List Nat)
    (h : ∀ id ∈ m ++ e ++ s, id < 4294967296) :
    parseYdke (buildYdke m e s) =
      .ok ⟨m, e, s,
        (if 0 < zerosAfterNonzero m + zerosAfterNonzero e + zerosAfterNonzero s
          then some true else none),
        (if zerosAfterNonzero m + zerosAfterNonzero e + zerosAfterNonzero s ≠ 0
          then some (zerosAfterNonzero m + zerosAfterNonzero e + zerosAfterNonzero s)
          else none)⟩ := by
  have hgen := parseYdke_build_gen m e s [] h (by simp) (Or.inl rfl)
  rw [List.append_nil] at hgen
  rw [hgen, countInferred_eq_zerosAfterNonzero m,
      countInferred_eq_zerosAfterNonzero e, countInferred_eq_zerosAfterNonzero s]

theorem parseYdke_inferred_count_witness :
    (∀ id ∈ ([5, 0] ++ [] ++ [0] : List Nat), id < 4294967296) ∧
    parseYdke (buildYdke [5, 0] [] [0]) =
      .ok ⟨[5, 0], [], [0], some true, some 1⟩ := by
  refine ⟨by decide, ?_⟩
  have h := parseYdke_inferred_count [5, 0] [] [0] (by decide)
  rw [h]
  decide

/-- C10: `parseYdke` accepts a payload with more than three `!`-separated
parts, using only the first three and silently ignoring the rest; in
particular a URI with a conventional trailing `!` such as
`ydke://AQAAAA==!!!` decodes successfully, while fewer than three parts
(`ydke://AQAAAA==!`) is the incomplete-link error. -/
theorem parseYdke_ignores_extra_parts :
    (∀ (m e s : List Nat) (junk : List Char),
      (∀ id ∈ m ++ e ++ s, id < 4294967296) →
      (∀ c ∈ junk, isJsWs c = false) →
      (parseYdke (buildYdke m e s ++ '!' :: junk)).map
        (fun d => (d.main, d.extra, d.side)) = .ok (m, e, s)) ∧
    (parseYdke ("ydke://AQAAAA==!!!".toList)).map
      (fun d => (d.main, d.extra, d.side)) = .ok ([1], [], []) ∧
    parseYdke ("ydke://AQAAAA==!".toList) =
      .error "Incomplete YDKE link. Make sure it includes main, extra, and side sections." := by
  refine ⟨?_, by decide, by decide⟩
  intro m e s junk hids hjunk
  have hws : ∀ c ∈ '!' :: junk, isJsWs c = false := by
    intro c hc
    rcases List.mem_cons.mp hc with rfl | hc
    · decide
    · exact hjunk c hc
  have hgen := parseYdke_build_gen m e s ('!' :: junk) hids hws (Or.inr ⟨junk, rfl⟩)
  rw [hgen]
  rfl

theorem parseYdke_ignores_extra_parts_witness :
    (parseYdke (buildYdke [1] [] [] ++ '!' :: [])).map
      (fun d => (d.main, d.extra, d.side)) = .ok ([1], [], []) :=
  parseYdke_ignores_extra_parts.1 [1] [] [] [] (by decide) (by decide)

/-! ## UTF-8 and share-token lemmas -/

theorem char_toNat_lt (c : Char) : c.toNat < 1114112 := by
  have h := c.valid
  rcases h with h | ⟨h1, h2⟩
  · have h2 : c.val.toNat < (0xd800 : UInt32).toNat := h
    have h3 : (0xd800 : UInt32).toNat = 0xd800 := rfl
    have h4 : c.toNat = c.val.toNat := rfl
    omega
  · have h3 : c.val.toNat < (0x110000 : UInt32).toNat := h2
    have h4 : (0x110000 : UInt32).toNat = 0x110000 := rfl
    have h5 : c.toNat = c.val.toNat := rfl
    omega

theorem utf8EncodeChar_lt (c : Char) : ∀ b ∈ utf8EncodeChar c, b < 256 := by
  have hv := char_toNat_lt c
  intro b hb
  unfold utf8EncodeChar at hb
  dsimp only at hb
  split at hb
  · simp only [List.mem_singleton] at hb
    omega
  · split at hb
    · simp only [List.mem_cons, List.mem_singleton] at hb
      rcases hb with rfl | rfl | h
      · omega
      · omega
      · simp at h
    · split at hb
      · simp only [List.mem_cons, List.mem_singleton] at hb
        rcases hb with rfl | rfl | rfl | h
        · omega
        · omega
        · omega
        · simp at h
      · simp only [List.mem_cons, List.mem_singleton] at hb
        rcases hb with rfl | rfl | rfl | rfl | h
        · omega
        · omega
        · omega
        · omega
        · simp at h

theorem utf8Encode_lt (s : List Char) : ∀ b ∈ utf8Encode s, b < 256 := by
  induction s with
  | nil => simp [utf8Encode]
  | cons c rest ih =>
    intro b hb
    simp only [utf8Encode, List.mem_append] at hb
    rcases hb with hb | hb
    · exact utf8EncodeChar_lt c b hb
    · exact ih b hb

theorem utf8Decode_encodeChar (c : Char) (bs : List Nat) :
    utf8Decode (utf8EncodeChar c ++ bs) = (utf8Decode bs).map (c :: ·) := by
  have hv := char_toNat_lt c
  unfold utf8EncodeChar
  dsimp only
  by_cases h1 : c.toNat < 0x80
  · rw [if_pos h1]
    show utf8Decode (c.toNat :: bs) = _
    unfold utf8Decode
    rw [if_pos h1, Char.ofNat_toNat]
    rw [← utf8Decode.eq_def]
  · rw [if_neg h1]
    by_cases h2 : c.toNat < 0x800
    · rw [if_pos h2]
      show utf8Decode ((0xC0 + c.toNat / 64) :: (0x80 + c.toNat % 64) :: bs) = _
      unfold utf8Decode
      rw [if_neg (by omega), if_neg (by omega), if_pos (by omega)]
      simp only [List.getD_cons_zero, List.length_cons, List.drop_succ_cons,
        List.drop_zero]
      rw [if_pos (by refine ⟨by omega, by omega, by omega⟩)]
      have e1 : (0xC0 + c.toNat / 64 - 0xC0) * 64 + (0x80 + c.toNat % 64 - 0x80) =
          c.toNat := by omega
      rw [e1, Char.ofNat_toNat, ← utf8Decode.eq_def]
    · rw [if_neg h2]
      by_cases h3 : c.toNat < 0x10000
      · rw [if_pos h3]
        show utf8Decode ((0xE0 + c.toNat / 4096) :: (0x80 + c.toNat / 64 % 64) ::
          (0x80 + c.toNat % 64) :: bs) = _
        unfold utf8Decode
        rw [if_neg (by omega), if_neg (by omega), if_neg (by omega),
            if_pos (by omega)]
        simp only [List.getD_cons_zero, List.getD_cons_succ, List.length_cons,
          List.drop_succ_cons, List.drop_zero]
        rw [if_pos (by refine ⟨by omega, ⟨by omega, by omega⟩, by omega, by omega⟩)]
        have e1 : (0xE0 + c.toNat / 4096 - 0xE0) * 4096 +
            (0x80 + c.toNat / 64 % 64 - 0x80) * 64 +
            (0x80 + c.toNat % 64 - 0x80) = c.toNat := by omega
        rw [e1, Char.ofNat_toNat, ← utf8Decode.eq_def]
      · rw [if_neg h3]
        show utf8Decode ((0xF0 + c.toNat / 262144) :: (0x80 + c.toNat / 4096 % 64) ::
          (0x80 + c.toNat / 64 % 64) :: (0x80 + c.toNat % 64) :: bs) = _
        unfold utf8Decode
        rw [if_neg (by omega), if_neg (by omega), if_neg (by omega),
            if_neg (by omega), if_pos (by omega)]
        simp only [List.getD_cons_zero, List.getD_cons_succ, List.length_cons,
          List.drop_succ_cons, List.drop_zero]
        rw [if_pos (by refine ⟨by omega, ⟨by omega, by omega⟩,
          ⟨by omega, by omega⟩, by omega, by omega⟩)]
        have e1 : (0xF0 + c.toNat / 262144 - 0xF0) * 262144 +
            (0x80 + c.toNat / 4096 % 64 - 0x80) * 4096 +
            (0x80 + c.toNat / 64 % 64 - 0x80) * 64 +
            (0x80 + c.toNat % 64 - 0x80) = c.toNat := by omega
        rw [e1, Char.ofNat_toNat, ← utf8Decode.eq_def]

theorem utf8Decode_encode (s : List Char) :
    utf8Decode (utf8Encode s) = some s := by
  induction s with
  | nil => simp [utf8Encode, utf8Decode]
  | cons c rest ih =>
    show utf8Decode (utf8EncodeChar c ++ utf8Encode rest) = _
    rw [utf8Decode_encodeChar, ih]
    rfl

/-- C8: the share-token codec round-trips: gzip the deck-code URI text,
base64url-encode without padding; decoding re-pads, base64-decodes and
decompresses back to the original text.  Stated for inputs fixed by
`trim`, which every valid deck-code URI is (the encoder trims first). -/
theorem decode_encode_deckHash (s : List Char) (h : jsTrim s = s) :
    decodeDeckHash (encodeDeckHash s) = some s := by
  unfold decodeDeckHash encodeDeckHash pakoGzipStr gzipBytes ungzipBytes
  rw [h, base64ToBytes_url _ (utf8Encode_lt s)]
  show utf8Decode (utf8Encode s) = some s
  exact utf8Decode_encode s

theorem decode_encode_deckHash_witness :
    jsTrim ("ydke://AQAAAA==!!!".toList) = "ydke://AQAAAA==!!!".toList ∧
    decodeDeckHash (encodeDeckHash ("ydke://AQAAAA==!!!".toList)) =
      some ("ydke://AQAAAA==!!!".toList) :=
  ⟨by decide, decode_encode_deckHash _ (by decide)⟩

/-! ## Name-normalization lemmas -/

theorem char_toNat_ofNat_lt (k : Nat) (h : k < 0xD800) :
    (Char.ofNat k).toNat = k := by
  unfold Char.ofNat
  rw [dif_pos (Or.inl h)]
  rfl

theorem isJsWs_iff (c : Char) : isJsWs c = true ↔
    (c.toNat = 9 ∨ c.toNat = 10 ∨ c.toNat = 11 ∨ c.toNat = 12 ∨ c.toNat = 13 ∨
     c.toNat = 32 ∨ c.toNat = 160 ∨ c.toNat = 5760 ∨
     (8192 ≤ c.toNat ∧ c.toNat ≤ 8202) ∨ c.toNat = 8232 ∨ c.toNat = 8233 ∨
     c.toNat = 8239 ∨ c.toNat = 8287 ∨ c.toNat = 12288 ∨ c.toNat = 65279) := by
  simp [isJsWs]
  omega

theorem jsToLowerChar_ws (c : Char) : isJsWs (jsToLowerChar c) = isJsWs c := by
  unfold jsToLowerChar
  dsimp only
  split
  · next h =>
    have ht : (Char.ofNat (c.toNat + 32)).toNat = c.toNat + 32 :=
      char_toNat_ofNat_lt _ (by omega)
    rw [Bool.eq_iff_iff, isJsWs_iff, isJsWs_iff, ht]
    omega
  · split
    · next h1 h2 =>
      have ht : (Char.ofNat (c.toNat + 32)).toNat = c.toNat + 32 :=
        char_toNat_ofNat_lt _ (by omega)
      rw [Bool.eq_iff_iff, isJsWs_iff, isJsWs_iff, ht]
      omega
    · rfl

theorem jsToLowerChar_idem (c : Char) :
    jsToLowerChar (jsToLowerChar c) = jsToLowerChar c := by
  unfold jsToLowerChar
  dsimp only
  split
  · next h =>
    have ht : (Char.ofNat (c.toNat + 32)).toNat = c.toNat + 32 :=
      char_toNat_ofNat_lt _ (by omega)
    rw [if_neg (by rw [ht]; omega), if_neg (by rw [ht]; omega)]
  · split
    · next h1 h2 =>
      have ht : (Char.ofNat (c.toNat + 32)).toNat = c.toNat + 32 :=
        char_toNat_ofNat_lt _ (by omega)
      rw [if_neg (by rw [ht]; omega), if_neg (by rw [ht]; omega)]
    · rfl

theorem dropWhile_head_false {p : Char → Bool} {l : List Char} {c : Char}
    {t : List Char} (h : l.dropWhile p = c :: t) : p c = false := by
  induction l with
  | nil => simp at h
  | cons a rest ih =>
    rw [List.dropWhile_cons] at h
    by_cases ha : p a = true
    · rw [if_pos ha] at h
      exact ih h
    · rw [if_neg ha] at h
      cases h
      simpa using ha

theorem collapseWsAux_true (l : List Char) :
    collapseWsAux true l = collapseWs (l.dropWhile isJsWs) := by
  induction l with
  | nil => rfl
  | cons c rest ih =>
    by_cases hc : isJsWs c = true
    · simp only [collapseWsAux, if_pos hc, if_pos rfl, ih,
        List.dropWhile_cons, hc]
      simp
    · have h1 : collapseWsAux true (c :: rest) = c :: collapseWsAux false rest := by
        simp [collapseWsAux, hc]
      have h2 : List.dropWhile isJsWs (c :: rest) = c :: rest := by
        simp [List.dropWhile_cons, hc]
      rw [h1, h2]
      show _ = collapseWsAux false (c :: rest)
      simp [collapseWsAux, hc]

theorem collapseWs_cons_not_ws {c : Char} {t : List Char} (h : isJsWs c = false) :
    collapseWs (c :: t) = c :: collapseWs t := by
  show collapseWsAux false (c :: t) = _
  simp [collapseWsAux, h]
  rfl

theorem collapseWs_cons_ws {c : Char} {t : List Char} (h : isJsWs c = true) :
    collapseWs (c :: t) = ' ' :: collapseWs (t.dropWhile isJsWs) := by
  show collapseWsAux false (c :: t) = _
  simp [collapseWsAux, h, collapseWsAux_true]

theorem collapseWsAux_idem (l : List Char) : ∀ b,
    collapseWsAux b (collapseWsAux b l) = collapseWsAux b l := by
  induction l with
  | nil => intro b; rfl
  | cons c rest ih =>
    intro b
    by_cases hc : isJsWs c = true
    · cases b
      · simp only [collapseWsAux, if_pos hc, Bool.false_eq_true, if_neg
          (by simp : ¬(false = true))]
        have hsp : isJsWs ' ' = true := by decide
        simp only [collapseWsAux, if_pos hsp, if_neg (by simp : ¬(false = true))]
        exact congrArg (' ' :: ·) (ih true)
      · simp only [collapseWsAux, if_pos hc, if_pos rfl]
        exact ih true
    · simp only [collapseWsAux, if_neg hc]
      exact congrArg (c :: ·) (ih false)

theorem collapseWs_idem (l : List Char) : collapseWs (collapseWs l) = collapseWs l :=
  collapseWsAux_idem l false

theorem collapseWsAux_map (f : Char → Char)
    (hws : ∀ c, isJsWs (f c) = isJsWs c) (hsp : f ' ' = ' ')
    (l : List Char) : ∀ b,
    collapseWsAux b (l.map f) = (collapseWsAux b l).map f := by
  induction l with
  | nil => intro b; rfl
  | cons c rest ih =>
    intro b
    by_cases hc : isJsWs c = true
    · have hfc : isJsWs (f c) = true := by rw [hws]; exact hc
      cases b
      · simp only [List.map_cons, collapseWsAux, if_pos hc, if_pos hfc,
          if_neg (by simp : ¬(false = true))]
        rw [ih true]
        simp [hsp]
      · simp only [List.map_cons, collapseWsAux, if_pos hc, if_pos hfc,
          if_pos rfl]
        exact ih true
    · have hfc : ¬ isJsWs (f c) = true := by rw [hws]; exact hc
      simp only [List.map_cons, collapseWsAux, if_neg hc, if_neg hfc]
      rw [ih false]

theorem collapseWs_jsToLower (l : List Char) :
    collapseWs (jsToLower l) = jsToLower (collapseWs l) :=
  collapseWsAux_map jsToLowerChar jsToLowerChar_ws (by decide) l false

theorem hasSub_cons_false {needle c t} (h : hasSub needle (c :: t) = false) :
    hasSub needle t = false := by
  simp only [hasSub, Bool.or_eq_false_iff] at h
  exact h.2

theorem mojiChars : "â€™".toList = ['â', '€', '™'] := rfl

theorem replaceMoji_cons3_ne {c1 c2 c3 : Char} {rest : List Char}
    (h3 : ¬(c1 = 'â' ∧ c2 = '€' ∧ c3 = '™')) :
    replaceMoji (c1 :: c2 :: c3 :: rest) = c1 :: replaceMoji (c2 :: c3 :: rest) := by
  unfold replaceMoji
  rw [if_neg h3]
  rw [← replaceMoji.eq_def]

theorem replaceMoji_cons3_eq (rest : List Char) :
    replaceMoji ('â' :: '€' :: '™' :: rest) = '\'' :: replaceMoji rest := by
  unfold replaceMoji
  rw [if_pos ⟨rfl, rfl, rfl⟩]
  rw [← replaceMoji.eq_def]

theorem replaceMoji_no_occ (l : List Char)
    (h : hasSub ("â€™".toList) l = false) : replaceMoji l = l := by
  induction l using replaceMoji.induct with
  | case1 => rfl
  | case2 c => rfl
  | case3 c1 c2 => rfl
  | case4 c1 c2 c3 rest h3 ih =>
    obtain ⟨rfl, rfl, rfl⟩ := h3
    exfalso
    rw [mojiChars] at h
    simp [hasSub, List.isPrefixOf] at h
  | case5 c1 c2 c3 rest h3 ih =>
    rw [replaceMoji_cons3_ne h3, ih (hasSub_cons_false h)]

theorem replaceMoji_ne_nil {l : List Char} (h : l ≠ []) : replaceMoji l ≠ [] := by
  match l with
  | [c] => simp [replaceMoji]
  | [c1, c2] => simp [replaceMoji]
  | c1 :: c2 :: c3 :: rest =>
    unfold replaceMoji
    split <;> simp

theorem replaceMoji_head {c0 : Char} {t0 : List Char}
    (h : isJsWs c0 = false) :
    ∃ c t, replaceMoji (c0 :: t0) = c :: t ∧ isJsWs c = false := by
  match t0 with
  | [] => exact ⟨c0, [], rfl, h⟩
  | [c2] => exact ⟨c0, [c2], rfl, h⟩
  | c2 :: c3 :: rest =>
    by_cases h3 : c0 = 'â' ∧ c2 = '€' ∧ c3 = '™'
    · obtain ⟨rfl, rfl, rfl⟩ := h3
      rw [replaceMoji_cons3_eq]
      exact ⟨'\'', _, rfl, by decide⟩
    · rw [replaceMoji_cons3_ne h3]
      exact ⟨c0, _, rfl, h⟩

theorem getLast?_suffix {l1 l2 : List Char} (h : l1 <:+ l2) (hne : l1 ≠ []) :
    l1.getLast? = l2.getLast? := by
  obtain ⟨pre, rfl⟩ := h
  rw [List.getLast?_append]
  cases hg : l1.getLast? with
  | none => exact absurd (List.getLast?_eq_none_iff.mp hg) hne
  | some c => rfl

theorem replaceMoji_last (l : List Char) {c0 : Char}
    (hl : l.getLast? = some c0) (h : isJsWs c0 = false) :
    ∃ c, (replaceMoji l).getLast? = some c ∧ isJsWs c = false := by
  induction l using replaceMoji.induct with
  | case1 => simp at hl
  | case2 c =>
    rw [show (([c] : List Char)).getLast? = some c from rfl] at hl
    cases hl
    exact ⟨c0, rfl, h⟩
  | case3 c1 c2 =>
    rw [show (([c1, c2] : List Char)).getLast? = some c2 from rfl] at hl
    cases hl
    exact ⟨c0, rfl, h⟩
  | case4 c1 c2 c3 rest h3 ih =>
    obtain ⟨rfl, rfl, rfl⟩ := h3
    rw [replaceMoji_cons3_eq]
    by_cases hr : rest = []
    · subst hr
      exact ⟨'\'', rfl, by decide⟩
    · have hlast : rest.getLast? = some c0 := by
        rw [List.getLast?_cons_cons, List.getLast?_cons_cons] at hl
        obtain ⟨y, ys, rfl⟩ := List.exists_cons_of_ne_nil hr
        rw [List.getLast?_cons_cons] at hl
        exact hl
      obtain ⟨c, hc1, hc2⟩ := ih hlast
      refine ⟨c, ?_, hc2⟩
      obtain ⟨y, ys, hy⟩ := List.exists_cons_of_ne_nil (replaceMoji_ne_nil hr)
      rw [hy, List.getLast?_cons_cons, ← hy, hc1]
  | case5 c1 c2 c3 rest h3 ih =>
    rw [replaceMoji_cons3_ne h3]
    have hlast : (c2 :: c3 :: rest).getLast? = some c0 := by
      rw [List.getLast?_cons_cons] at hl
      exact hl
    obtain ⟨c, hc1, hc2⟩ := ih hlast
    refine ⟨c, ?_, hc2⟩
    obtain ⟨y, ys, hy⟩ := List.exists_cons_of_ne_nil
      (replaceMoji_ne_nil (by simp) : replaceMoji (c2 :: c3 :: rest) ≠ [])
    rw [hy, List.getLast?_cons_cons, ← hy, hc1]

theorem dropWhile_eq_self_of_head {p : Char → Bool} {l : List Char}
    (h : ∀ c, l.head? = some c → p c = false) : l.dropWhile p = l := by
  cases l with
  | nil => rfl
  | cons a t =>
    rw [List.dropWhile_cons, if_neg]
    simp [h a rfl]

theorem jsTrim_head (l : List Char) {c : Char}
    (h : (jsTrim l).head? = some c) : isJsWs c = false := by
  unfold jsTrim at h
  rw [List.head?_reverse] at h
  have hsuf := getLast?_suffix (List.dropWhile_suffix (l := (l.dropWhile isJsWs).reverse)
    isJsWs) (by
      intro hnil
      rw [hnil] at h
      simp at h)
  rw [hsuf, List.getLast?_reverse] at h
  cases hd : l.dropWhile isJsWs with
  | nil =>
    rw [hd] at h
    simp at h
  | cons a t =>
    rw [hd] at h
    simp only [List.head?_cons, Option.some_inj] at h
    subst h
    exact dropWhile_head_false hd

theorem jsTrim_last (l : List Char) {c : Char}
    (h : (jsTrim l).getLast? = some c) : isJsWs c = false := by
  unfold jsTrim at h
  rw [List.getLast?_reverse] at h
  cases hd : ((l.dropWhile isJsWs).reverse).dropWhile isJsWs with
  | nil =>
    rw [hd] at h
    simp at h
  | cons a t =>
    rw [hd] at h
    simp only [List.head?_cons, Option.some_inj] at h
    subst h
    exact dropWhile_head_false hd

theorem jsTrim_eq_self_of_bounds (l : List Char)
    (hh : ∀ c, l.head? = some c → isJsWs c = false)
    (hl : ∀ c, l.getLast? = some c → isJsWs c = false) : jsTrim l = l := by
  unfold jsTrim
  rw [dropWhile_eq_self_of_head hh]
  rw [dropWhile_eq_self_of_head (by
    intro c hc
    rw [List.head?_reverse] at hc
    exact hl c hc)]
  exact List.reverse_reverse l

theorem collapseWsAux_ne_nil_false {l : List Char} (h : l ≠ []) :
    collapseWsAux false l ≠ [] := by
  obtain ⟨c, t, rfl⟩ := List.exists_cons_of_ne_nil h
  simp only [collapseWsAux]
  split
  · simp
  · simp

theorem collapseWsAux_ne_nil_of_exists {l : List Char}
    (h : ∃ x ∈ l, isJsWs x = false) : ∀ b, collapseWsAux b l ≠ [] := by
  induction l with
  | nil => simp at h
  | cons c rest ih =>
    intro b
    by_cases hc : isJsWs c = true
    · have hex : ∃ x ∈ rest, isJsWs x = false := by
        obtain ⟨x, hx, hxf⟩ := h
        rcases List.mem_cons.mp hx with rfl | hx
        · rw [hc] at hxf
          simp at hxf
        · exact ⟨x, hx, hxf⟩
      cases b
      · simp only [collapseWsAux, if_pos hc, if_neg (by simp : ¬(false = true))]
        simp
      · simp only [collapseWsAux, if_pos hc, if_pos rfl]
        exact ih hex true
    · simp only [collapseWsAux, if_neg hc]
      simp

theorem collapseWsAux_last : ∀ (l : List Char) {c0 : Char},
    l.getLast? = some c0 → isJsWs c0 = false → ∀ b,
    ∃ c, (collapseWsAux b l).getLast? = some c ∧ isJsWs c = false := by
  intro l
  induction l with
  | nil =>
    intro c0 hl
    simp at hl
  | cons a rest ih =>
    intro c0 hl h b
    by_cases hr : rest = []
    · subst hr
      rw [show ([a] : List Char).getLast? = some a from rfl] at hl
      cases hl
      refine ⟨a, ?_, h⟩
      simp [collapseWsAux, h]
    · have hlast : rest.getLast? = some c0 := by
        obtain ⟨y, ys, rfl⟩ := List.exists_cons_of_ne_nil hr
        rw [List.getLast?_cons_cons] at hl
        exact hl
      by_cases ha : isJsWs a = true
      · have hex : ∃ x ∈ rest, isJsWs x = false :=
          ⟨c0, List.mem_of_mem_getLast? hlast, h⟩
        cases b
        · have e : collapseWsAux false (a :: rest) = ' ' :: collapseWsAux true rest := by
            simp [collapseWsAux, ha]
          rw [e]
          obtain ⟨c, hc1, hc2⟩ := ih hlast h true
          refine ⟨c, ?_, hc2⟩
          obtain ⟨y, ys, hy⟩ := List.exists_cons_of_ne_nil
            (collapseWsAux_ne_nil_of_exists hex true)
          rw [hy, List.getLast?_cons_cons, ← hy, hc1]
        · have e : collapseWsAux true (a :: rest) = collapseWsAux true rest := by
            simp [collapseWsAux, ha]
          rw [e]
          exact ih hlast h true
      · have e : collapseWsAux b (a :: rest) = a :: collapseWsAux false rest := by
          cases b <;> simp [collapseWsAux, ha]
        rw [e]
        obtain ⟨c, hc1, hc2⟩ := ih hlast h false
        refine ⟨c, ?_, hc2⟩
        obtain ⟨y, ys, hy⟩ := List.exists_cons_of_ne_nil (collapseWsAux_ne_nil_false hr)
        rw [hy, List.getLast?_cons_cons, ← hy, hc1]

theorem normalizeCardName_head (x : List Char) {c : Char}
    (h : (normalizeCardName x).head? = some c) : isJsWs c = false := by
  unfold normalizeCardName jsToLower at h
  rw [List.head?_map] at h
  cases hw : (collapseWs (replaceMoji (jsTrim x))).head? with
  | none =>
    rw [hw] at h
    simp at h
  | some c' =>
    rw [hw, Option.map_some'] at h
    cases h
    rw [jsToLowerChar_ws]
    cases ht : jsTrim x with
    | nil =>
      rw [ht] at hw
      rw [show collapseWs (replaceMoji ([] : List Char)) = [] from rfl] at hw
      simp at hw
    | cons c0 t0 =>
      have hc0 : isJsWs c0 = false := jsTrim_head x (by rw [ht]; rfl)
      obtain ⟨cY, tY, hY, hYw⟩ := @replaceMoji_head c0 t0 hc0
      rw [ht, hY, collapseWs_cons_not_ws hYw] at hw
      simp only [List.head?_cons, Option.some_inj] at hw
      subst hw
      exact hYw

theorem normalizeCardName_last (x : List Char) {c : Char}
    (h : (normalizeCardName x).getLast? = some c) : isJsWs c = false := by
  unfold normalizeCardName jsToLower at h
  rw [List.getLast?_map] at h
  cases hw : (collapseWs (replaceMoji (jsTrim x))).getLast? with
  | none =>
    rw [hw] at h
    simp at h
  | some c' =>
    rw [hw, Option.map_some'] at h
    cases h
    rw [jsToLowerChar_ws]
    cases ht : jsTrim x with
    | nil =>
      rw [ht] at hw
      rw [show collapseWs (replaceMoji ([] : List Char)) = [] from rfl] at hw
      simp at hw
    | cons c0 t0 =>
      have hne : jsTrim x ≠ [] := by rw [ht]; simp
      obtain ⟨cL, hcL⟩ : ∃ cL, (jsTrim x).getLast? = some cL := by
        cases hg : (jsTrim x).getLast? with
        | none => exact absurd (List.getLast?_eq_none_iff.mp hg) hne
        | some z => exact ⟨z, rfl⟩
      have hcLw : isJsWs cL = false := jsTrim_last x hcL
      obtain ⟨cM, hM1, hM2⟩ := replaceMoji_last (jsTrim x) hcL hcLw
      obtain ⟨cK, hK1, hK2⟩ := collapseWsAux_last (replaceMoji (jsTrim x)) hM1 hM2 false
      have : (collapseWs (replaceMoji (jsTrim x))).getLast? = some cK := hK1
      rw [hw] at this
      cases this
      exact hK2

theorem jsTrim_normalize_fix (x : List Char) :
    jsTrim (normalizeCardName x) = normalizeCardName x :=
  jsTrim_eq_self_of_bounds _ (fun _ hc => normalizeCardName_head x hc)
    (fun _ hc => normalizeCardName_last x hc)

theorem collapseWs_normalize_fix (x : List Char) :
    collapseWs (normalizeCardName x) = normalizeCardName x := by
  unfold normalizeCardName
  rw [collapseWs_jsToLower, collapseWs_idem]

theorem jsToLower_normalize_fix (x : List Char) :
    jsToLower (normalizeCardName x) = normalizeCardName x := by
  unfold normalizeCardName jsToLower
  rw [List.map_map]
  have hf : jsToLowerChar ∘ jsToLowerChar = jsToLowerChar := funext jsToLowerChar_idem
  rw [hf]

/-- C7 counterexample: `normalizeCardName` is not idempotent.  On the
three-character input `Â` `€` `™`, the first pass leaves the text alone
until lower-casing turns `Â` into `â`, creating the mojibake sequence;
the second pass then rewrites it to an apostrophe. -/
theorem normalizeCardName_not_idem :
    normalizeCardName (normalizeCardName ("Â€™".toList)) ≠
      normalizeCardName ("Â€™".toList) := by
  decide

/-- C7 amended: `normalizeCardName` is idempotent on every string whose
normalized form does not contain the mojibake sequence `â` `€` `™` (the
only way a second pass can differ, since lower-casing can mint a fresh
occurrence of that sequence from `Â` `€` `™`). -/
theorem normalizeCardName_idem (x : List Char)
    (h : hasSub ("â€™".toList) (normalizeCardName x) = false) :
    normalizeCardName (normalizeCardName x) = normalizeCardName x := by
  show jsToLower (collapseWs (replaceMoji (jsTrim (normalizeCardName x)))) =
    normalizeCardName x
  rw [jsTrim_normalize_fix x, replaceMoji_no_occ _ h,
      collapseWs_normalize_fix x, jsToLower_normalize_fix x]

theorem normalizeCardName_idem_witness :
    hasSub ("â€™".toList) (normalizeCardName ("  Dark   Magician ".toList)) = false ∧
    normalizeCardName (normalizeCardName ("  Dark   Magician ".toList)) =
      normalizeCardName ("  Dark   Magician ".toList) :=
  ⟨by decide, normalizeCardName_idem _ (by decide)⟩

/-! ## Missing-id resolution lemmas -/

theorem fillZ_nil (l : List Nat) : fillZ l [] = l := by
  induction l with
  | nil => rfl
  | cons x xs ih => simp [fillZ, ih]

theorem setAll_shift (x : Nat) (xs : List Nat) (ps : List (Nat × Nat)) :
    setAll (x :: xs) (ps.map (fun p => (p.1 + 1, p.2))) = x :: setAll xs ps := by
  induction ps generalizing x xs with
  | nil => rfl
  | cons p ps ih =>
    simp only [List.map_cons, setAll, List.foldl_cons]
    rw [List.set_cons_succ]
    exact ih x (xs.set p.1 p.2)

theorem findSlots_cons (x : Nat) (xs : List Nat) :
    findSlots (x :: xs) =
      if x ≤ 0 then 0 :: (findSlots xs).map (· + 1)
      else (findSlots xs).map (· + 1) := rfl

/-- The `handleMissingIdResolve` substitution loop equals the reference
walk `fillZ`. -/
theorem setAll_zip_eq_fillZ (sec : List Nat) (reps : List Nat) :
    setAll sec ((findSlots sec).zip reps) = fillZ sec reps := by
  induction sec generalizing reps with
  | nil =>
    cases reps <;> rfl
  | cons x xs ih =>
    rw [findSlots_cons]
    by_cases hx : x ≤ 0
    · rw [if_pos hx]
      cases reps with
      | nil =>
        show setAll (x :: xs) [] = fillZ (x :: xs) []
        rw [fillZ_nil]
        rfl
      | cons r rs =>
        show setAll (x :: xs) ((0, r) :: ((findSlots xs).map (· + 1)).zip rs) = _
        rw [show ((findSlots xs).map (· + 1)).zip rs =
          ((findSlots xs).zip rs).map (fun p => (p.1 + 1, p.2)) by
            rw [List.zip_map_left]
            rfl]
        show setAll ((x :: xs).set 0 r) _ = _
        rw [List.set_cons_zero, setAll_shift, ih rs]
        simp [fillZ, hx]
    · rw [if_neg hx]
      rw [show ((findSlots xs).map (· + 1)).zip reps =
        ((findSlots xs).zip reps).map (fun p => (p.1 + 1, p.2)) by
          rw [List.zip_map_left]
          rfl]
      rw [setAll_shift, ih reps]
      cases reps with
      | nil => simp [fillZ]
      | cons r rs => simp [fillZ, hx]

theorem fillZ_length (sec reps : List Nat) :
    (fillZ sec reps).length = sec.length := by
  induction sec generalizing reps with
  | nil => rfl
  | cons x xs ih =>
    cases reps with
    | nil => simp [fillZ, ih]
    | cons r rs =>
      by_cases hx : x ≤ 0
      · simp [fillZ, hx, ih]
      · simp [fillZ, hx, ih]

theorem fillZ_frame (sec reps : List Nat) :
    ∀ i, i < sec.length → sec.getD i 0 ≠ 0 →
      (fillZ sec reps).getD i 0 = sec.getD i 0 := by
  induction sec generalizing reps with
  | nil => simp
  | cons x xs ih =>
    intro i hi hnz
    cases reps with
    | nil => rw [fillZ_nil]
    | cons r rs =>
      by_cases hx : x ≤ 0
      · cases i with
        | zero => simp at hnz; omega
        | succ j =>
          simp only [fillZ, if_pos hx, List.getD_cons_succ] at hnz ⊢
          exact ih rs j (by simpa using Nat.lt_of_succ_lt_succ hi) hnz
      · cases i with
        | zero => simp [fillZ, hx]
        | succ j =>
          simp only [fillZ, if_neg hx, List.getD_cons_succ] at hnz ⊢
          exact ih (r :: rs) j (by simpa using Nat.lt_of_succ_lt_succ hi) hnz

theorem getD_map_add_one (l : List Nat) (j : Nat) (h : j < l.length) :
    (l.map (· + 1)).getD j 0 = l.getD j 0 + 1 := by
  induction l generalizing j with
  | nil => simp at h
  | cons a t ih =>
    cases j with
    | zero => rfl
    | succ i =>
      simp only [List.map_cons, List.getD_cons_succ]
      exact ih i (by simpa using Nat.lt_of_succ_lt_succ h)

theorem fillZ_hits (sec reps : List Nat)
    (hlen : reps.length ≤ (findSlots sec).length) :
    ∀ j, j < reps.length →
      (fillZ sec reps).getD ((findSlots sec).getD j 0) 0 = reps.getD j 0 := by
  induction sec generalizing reps with
  | nil =>
    simp only [findSlots, List.length_nil, Nat.le_zero, List.length_eq_zero] at hlen
    subst hlen
    simp
  | cons x xs ih =>
    intro j hj
    rw [findSlots_cons] at hlen ⊢
    by_cases hx : x ≤ 0
    · rw [if_pos hx] at hlen ⊢
      cases reps with
      | nil => simp at hj
      | cons r rs =>
        cases j with
        | zero => simp [fillZ, hx]
        | succ i =>
          have hi : i < rs.length := by simpa using Nat.lt_of_succ_lt_succ hj
          have hlen' : rs.length ≤ (findSlots xs).length := by
            simp only [List.length_cons, List.length_map] at hlen
            omega
          simp only [List.getD_cons_succ]
          rw [getD_map_add_one _ i (lt_of_lt_of_le hi hlen')]
          simp only [fillZ, if_pos hx, List.getD_cons_succ]
          exact ih rs hlen' i hi
    · rw [if_neg hx] at hlen ⊢
      cases reps with
      | nil => simp at hj
      | cons r rs =>
        have hlen' : (r :: rs).length ≤ (findSlots xs).length := by
          simpa using hlen
        rw [getD_map_add_one _ j (lt_of_lt_of_le hj hlen')]
        simp only [fillZ, if_neg hx, List.getD_cons_succ]
        exact ih (r :: rs) hlen' j hj

theorem fillZ_slots (sec reps : List Nat)
    (hreps : ∀ r ∈ reps, 0 < r)
    (hlen : reps.length ≤ (findSlots sec).length) :
    findSlots (fillZ sec reps) = (findSlots sec).drop reps.length := by
  induction sec generalizing reps with
  | nil =>
    simp only [findSlots, List.length_nil, Nat.le_zero, List.length_eq_zero] at hlen
    subst hlen
    rfl
  | cons x xs ih =>
    rw [findSlots_cons] at hlen ⊢
    by_cases hx : x ≤ 0
    · rw [if_pos hx] at hlen ⊢
      cases reps with
      | nil =>
        rw [fillZ_nil, show ([] : List Nat).length = 0 from rfl, List.drop_zero,
            findSlots_cons, if_pos hx]
      | cons r rs =>
        have hr : 0 < r := hreps r (by simp)
        have hlen' : rs.length ≤ (findSlots xs).length := by
          simp only [List.length_cons, List.length_map] at hlen
          omega
        have hrs : ∀ q ∈ rs, 0 < q := fun q hq => hreps q (by simp [hq])
        simp only [fillZ, if_pos hx]
        rw [findSlots_cons, if_neg (by omega), ih rs hrs hlen']
        simp only [List.length_cons, List.drop_succ_cons]
        rw [List.map_drop]
    · rw [if_neg hx] at hlen ⊢
      cases reps with
      | nil =>
        rw [fillZ_nil, show ([] : List Nat).length = 0 from rfl, List.drop_zero,
            findSlots_cons, if_neg hx]
      | cons r rs =>
        have hlen' : (r :: rs).length ≤ (findSlots xs).length := by
          simpa using hlen
        simp only [fillZ, if_neg hx]
        rw [findSlots_cons, if_neg hx, ih (r :: rs) hreps hlen']
        rw [List.map_drop]

theorem zoneGet_zoneSet_same (d : SimpleDeck) (z : DeckSection) (l : List Nat) :
    zoneGet (zoneSet d z l) z = l := by
  cases z <;> rfl

theorem zoneGet_zoneSet_other (d : SimpleDeck) (z z' : DeckSection)
    (l : List Nat) (h : z' ≠ z) : zoneGet (zoneSet d z l) z' = zoneGet d z' := by
  cases z <;> cases z' <;> first
    | rfl
    | exact absurd rfl h

/-- C4: missing-id resolution substitutes `k <= missingCount` non-zero
replacements into the `k` earliest placeholder positions of the chosen
section, in original order; every non-placeholder position and both other
sections are untouched; the remaining placeholders are exactly
`missingCount - k`, located at the latest original placeholder positions
(with `k = missingCount`, none remain). -/
theorem handleMissingIdResolve_spec (deck : SimpleDeck) (zone : DeckSection)
    (reps : List Nat) (hreps : ∀ r ∈ reps, 0 < r)
    (hlen : reps.length ≤ (findSlots (zoneGet deck zone)).length) :
    (∀ z, z ≠ zone →
      zoneGet (applyMissingResolve deck zone reps) z = zoneGet deck z) ∧
    (zoneGet (applyMissingResolve deck zone reps) zone).length =
      (zoneGet deck zone).length ∧
    (∀ i, i < (zoneGet deck zone).length → (zoneGet deck zone).getD i 0 ≠ 0 →
      (zoneGet (applyMissingResolve deck zone reps) zone).getD i 0 =
        (zoneGet deck zone).getD i 0) ∧
    (∀ j, j < reps.length →
      (zoneGet (applyMissingResolve deck zone reps) zone).getD
        ((findSlots (zoneGet deck zone)).getD j 0) 0 = reps.getD j 0) ∧
    findSlots (zoneGet (applyMissingResolve deck zone reps) zone) =
      (findSlots (zoneGet deck zone)).drop reps.length := by
  unfold applyMissingResolve
  by_cases hs : findSlots (zoneGet deck zone) = []
  · have hrnil : reps = [] := by
      rw [hs] at hlen
      simpa using hlen
    subst hrnil
    rw [if_pos hs]
    refine ⟨fun z _ => rfl, rfl, fun i _ _ => rfl, by simp, by simp⟩
  · rw [if_neg hs]
    by_cases hr : reps = []
    · subst hr
      rw [if_pos rfl]
      refine ⟨fun z _ => rfl, rfl, fun i _ _ => rfl, by simp, by simp⟩
    · rw [if_neg hr]
      rw [zoneGet_zoneSet_same, setAll_zip_eq_fillZ]
      refine ⟨fun z hz => zoneGet_zoneSet_other deck zone z _ hz,
        fillZ_length _ _, fillZ_frame _ _, fillZ_hits _ _ hlen,
        fillZ_slots _ _ hreps hlen⟩

theorem handleMissingIdResolve_spec_witness :
    findSlots (zoneGet (applyMissingResolve ⟨[7, 0, 8, 0], [], [1]⟩
      DeckSection.main [42]) DeckSection.main) =
    (findSlots (zoneGet (⟨[7, 0, 8, 0], [], [1]⟩ : SimpleDeck)
      DeckSection.main)).drop 1 :=
  (handleMissingIdResolve_spec ⟨[7, 0, 8, 0], [], [1]⟩ DeckSection.main [42]
    (by decide) (by decide)).2.2.2.2

/-! ## Aggregation lemmas: conservation and totals -/

theorem bumpCount_sum (acc : List (Nat × Nat × Nat)) (id idx : Nat) :
    ((bumpCount acc id idx).map (·.2.1)).sum = ((acc.map (·.2.1)).sum) + 1 := by
  induction acc with
  | nil => rfl
  | cons e rest ih =>
    by_cases he : e.1 = id
    · simp only [bumpCount, if_pos he, List.map_cons, List.sum_cons]
      omega
    · simp only [bumpCount, if_neg he, List.map_cons, List.sum_cons, ih]
      omega

theorem countPass_foldl_sum (l : List (Nat × Nat)) :
    ∀ acc : List (Nat × Nat × Nat),
    (((l.foldl (fun a p => bumpCount a p.2 p.1) acc)).map (·.2.1)).sum =
      ((acc.map (·.2.1)).sum) + l.length := by
  induction l with
  | nil => intro acc; simp
  | cons p rest ih =>
    intro acc
    simp only [List.foldl_cons, List.length_cons, ih (bumpCount acc p.2 p.1),
      bumpCount_sum]
    omega

theorem countPass_sum (ids : List Nat) :
    ((countPass ids).map (·.2.1)).sum = ids.length := by
  unfold countPass
  rw [countPass_foldl_sum]
  simp

theorem mergeInto_sum (acc : List (List Char × DeckCardGroup)) (g : DeckCardGroup) :
    (((mergeInto acc g)).map (·.2.count)).sum =
      ((acc.map (·.2.count)).sum) + g.count := by
  induction acc with
  | nil => simp [mergeInto]
  | cons p rest ih =>
    obtain ⟨k, e⟩ := p
    by_cases hk : k = normalizeCardName g.name
    · simp only [mergeInto, if_pos hk, List.map_cons, List.sum_cons, mergeGroups]
      omega
    · simp only [mergeInto, if_neg hk, List.map_cons, List.sum_cons, ih]
      omega

theorem mergeFold_sum (raws : List DeckCardGroup) :
    ∀ acc : List (List Char × DeckCardGroup),
    (((raws.foldl mergeInto acc)).map (·.2.count)).sum =
      ((acc.map (·.2.count)).sum) + ((raws.map (·.count)).sum) := by
  induction raws with
  | nil => intro acc; simp
  | cons g rest ih =>
    intro acc
    simp only [List.foldl_cons, List.map_cons, List.sum_cons, ih (mergeInto acc g),
      mergeInto_sum]
    omega

theorem mergePass_sum (raws : List DeckCardGroup) :
    ((mergePass raws).map (·.count)).sum = ((raws.map (·.count)).sum) := by
  unfold mergePass
  rw [List.map_map]
  have : ((raws.foldl mergeInto []).map ((·.count) ∘ (·.2))).sum =
      ((raws.foldl mergeInto []).map (·.2.count)).sum := rfl
  rw [this, mergeFold_sum]
  simp

/-- C3: for every section and every (possibly empty) metadata table and
point table, the counts of the output groups sum to the length of the
section's original id sequence — no slot is dropped or double-counted by
the count pass or the merge pass. -/
theorem toGroup_conservation (table : Nat → Option CardDetails)
    (pointEntries : List (List Char × Nat)) (zone : DeckSection)
    (ids : List Nat) :
    ((toGroup table pointEntries zone ids).map (·.count)).sum = ids.length := by
  unfold toGroup
  have hperm := List.perm_insertionSort
    (fun a b => compareCards table zone a b ≤ 0)
    (mergePass ((countPass ids).map (mkRawGroup table pointEntries zone)))
  rw [(hperm.map (·.count)).sum_eq, mergePass_sum, List.map_map]
  have : ((countPass ids).map ((·.count) ∘ mkRawGroup table pointEntries zone)) =
      (countPass ids).map (·.2.1) := by
    apply List.map_congr_left
    intro e _
    rfl
  rw [this, countPass_sum]

theorem mkRawGroup_inv (table : Nat → Option CardDetails)
    (pointEntries : List (List Char × Nat)) (zone : DeckSection)
    (entry : Nat × Nat × Nat) :
    entryInv pointEntries
      (normalizeCardName (mkRawGroup table pointEntries zone entry).name,
       mkRawGroup table pointEntries zone entry) := by
  refine ⟨rfl, rfl, rfl, rfl⟩

theorem mergeGroups_inv (pointEntries : List (List Char × Nat))
    (k : List Char) (e g : DeckCardGroup)
    (he : entryInv pointEntries (k, e))
    (hg : entryInv pointEntries (normalizeCardName g.name, g))
    (hk : k = normalizeCardName g.name) :
    entryInv pointEntries (k, mergeGroups e g) := by
  obtain ⟨he1, he2, he3, he4⟩ := he
  obtain ⟨-, hg2, hg3, -⟩ := hg
  have hpp : e.pointsPerCopy = g.pointsPerCopy := by
    rw [he2, hg2, hk]
  refine ⟨he1, he2, ?_, he4⟩
  show e.totalPoints + g.totalPoints = e.pointsPerCopy * (e.count + g.count)
  rw [he3, hg3, ← hpp, Nat.mul_add]

theorem mergeInto_inv (pointEntries : List (List Char × Nat))
    (acc : List (List Char × DeckCardGroup)) (g : DeckCardGroup)
    (hacc : ∀ p ∈ acc, entryInv pointEntries p)
    (hg : entryInv pointEntries (normalizeCardName g.name, g)) :
    ∀ p ∈ mergeInto acc g, entryInv pointEntries p := by
  induction acc with
  | nil =>
    intro p hp
    simp only [mergeInto, List.mem_singleton] at hp
    subst hp
    exact hg
  | cons q rest ih =>
    obtain ⟨k, e⟩ := q
    intro p hp
    by_cases hk : k = normalizeCardName g.name
    · simp only [mergeInto, if_pos hk, List.mem_cons] at hp
      rcases hp with rfl | hp
      · exact mergeGroups_inv pointEntries k e g (hacc (k, e) (by simp)) hg hk
      · exact hacc p (by simp [hp])
    · simp only [mergeInto, if_neg hk, List.mem_cons] at hp
      rcases hp with rfl | hp
      · exact hacc (k, e) (by simp)
      · exact ih (fun q hq => hacc q (by simp [hq])) p hp

theorem mergeFold_inv (pointEntries : List (List Char × Nat))
    (raws : List DeckCardGroup)
    (hraws : ∀ g ∈ raws, entryInv pointEntries (normalizeCardName g.name, g)) :
    ∀ acc : List (List Char × DeckCardGroup),
    (∀ p ∈ acc, entryInv pointEntries p) →
    ∀ p ∈ raws.foldl mergeInto acc, entryInv pointEntries p := by
  induction raws with
  | nil =>
    intro acc hacc p hp
    exact hacc p hp
  | cons g rest ih =>
    intro acc hacc p hp
    simp only [List.foldl_cons] at hp
    exact ih (fun q hq => hraws q (by simp [hq])) (mergeInto acc g)
      (mergeInto_inv pointEntries acc g hacc (hraws g (by simp))) p hp

theorem toGroup_inv (table : Nat → Option CardDetails)
    (pointEntries : List (List Char × Nat)) (zone : DeckSection)
    (ids : List Nat) :
    ∀ g ∈ toGroup table pointEntries zone ids,
      g.pointsPerCopy = (jsMapGet pointEntries (normalizeCardName g.name)).getD 0 ∧
      g.totalPoints = g.pointsPerCopy * g.count ∧
      g.notInList = (jsMapGet pointEntries (normalizeCardName g.name)).isNone := by
  intro g hg
  unfold toGroup at hg
  rw [(List.perm_insertionSort _ _).mem_iff] at hg
  unfold mergePass at hg
  rw [List.mem_map] at hg
  obtain ⟨p, hp, rfl⟩ := hg
  have hinv := mergeFold_inv pointEntries
    ((countPass ids).map (mkRawGroup table pointEntries zone))
    (by
      intro g hg
      rw [List.mem_map] at hg
      obtain ⟨e, _, rfl⟩ := hg
      exact mkRawGroup_inv table pointEntries zone e)
    [] (by simp) p hp
  obtain ⟨h1, h2, h3, h4⟩ := hinv
  rw [h1] at h2 h4
  exact ⟨h2, h3, h4⟩

/-- C2: for every aggregation input, every produced group (merged variants
included) satisfies `totalPoints = pointsPerCopy * count`, and the
deck-wide total equals the sum of `totalPoints` over all groups of all
three sections. -/
theorem deckGroups_totals_invariant (table : Nat → Option CardDetails)
    (pointEntries : List (List Char × Nat)) (m e s : List Nat) :
    (∀ g ∈ (deckGroups table pointEntries m e s).main ++
        (deckGroups table pointEntries m e s).extra ++
        (deckGroups table pointEntries m e s).side,
      g.totalPoints = g.pointsPerCopy * g.count) ∧
    deckTotalPoints (deckGroups table pointEntries m e s) =
      (((deckGroups table pointEntries m e s).main ++
        (deckGroups table pointEntries m e s).extra ++
        (deckGroups table pointEntries m e s).side).map (·.totalPoints)).sum := by
  constructor
  · intro g hg
    rcases List.mem_append.mp hg with hg1 | hg2
    · rcases List.mem_append.mp hg1 with hgm | hge
      · exact (toGroup_inv table pointEntries DeckSection.main m g hgm).2.1
      · exact (toGroup_inv table pointEntries DeckSection.extra e g hge).2.1
    · exact (toGroup_inv table pointEntries DeckSection.side s g hg2).2.1
  · rfl

theorem deckGroups_totals_invariant_witness :
    ((toGroup scenarioTable scenarioPoints DeckSection.main
        [5, 5, 5, 7]).getD 0 defaultGroup).totalPoints =
      ((toGroup scenarioTable scenarioPoints DeckSection.main
        [5, 5, 5, 7]).getD 0 defaultGroup).pointsPerCopy *
      ((toGroup scenarioTable scenarioPoints DeckSection.main
        [5, 5, 5, 7]).getD 0 defaultGroup).count :=
  (deckGroups_totals_invariant scenarioTable scenarioPoints [5, 5, 5, 7] [] []).1
    _ (by
      apply List.mem_append.mpr
      apply Or.inl
      apply List.mem_append.mpr
      apply Or.inl
      show _ ∈ toGroup scenarioTable scenarioPoints DeckSection.main [5, 5, 5, 7]
      decide)

/-- C9: for every aggregated group, `notInList` is true exactly when the
group's normalized display name is absent from the point-table index, and
`pointsPerCopy` is the looked-up value (0 on a miss): a card listed with 0
points gets `pointsPerCopy = 0` with `notInList = false`, an absent card
gets `pointsPerCopy = 0` with `notInList = true`, and a miss is never an
error — the group is still produced. -/
theorem toGroup_notInList_iff (table : Nat → Option CardDetails)
    (pointEntries : List (List Char × Nat)) (zone : DeckSection)
    (ids : List Nat) :
    ∀ g ∈ toGroup table pointEntries zone ids,
      (g.notInList = true ↔
        jsMapGet pointEntries (normalizeCardName g.name) = none) ∧
      g.pointsPerCopy =
        (jsMapGet pointEntries (normalizeCardName g.name)).getD 0 := by
  intro g hg
  obtain ⟨h1, _, h3⟩ := toGroup_inv table pointEntries zone ids g hg
  refine ⟨?_, h1⟩
  rw [h3]
  simp [Option.isNone_iff_eq_none]

theorem toGroup_notInList_iff_witness :
    ((((toGroup potTable potPoints DeckSection.main [55144522]).getD 0
        defaultGroup).notInList = true ↔
      jsMapGet potPoints (normalizeCardName
        ((toGroup potTable potPoints DeckSection.main [55144522]).getD 0
          defaultGroup).name) = none) ∧
    ((toGroup potTable potPoints DeckSection.main [55144522]).getD 0
        defaultGroup).pointsPerCopy =
      (jsMapGet potPoints (normalizeCardName
        ((toGroup potTable potPoints DeckSection.main [55144522]).getD 0
          defaultGroup).name)).getD 0) :=
  toGroup_notInList_iff potTable potPoints DeckSection.main [55144522]
    _ (by decide)

/-! ## Sort-order lemmas -/

theorem compareL_neg (a : List Char) : ∀ b, compareL b a = -compareL a b := by
  induction a with
  | nil =>
    intro b
    cases b <;> rfl
  | cons x xs ih =>
    intro b
    cases b with
    | nil => rfl
    | cons y ys =>
      simp only [compareL]
      by_cases h1 : x.toNat < y.toNat
      · rw [if_neg (by omega), if_pos h1, if_pos h1]
        rfl
      · by_cases h2 : y.toNat < x.toNat
        · rw [if_pos h2, if_neg h1, if_pos h2]
        · rw [if_neg h2, if_neg h1, if_neg h1, if_neg h2, ih ys]

theorem compareL_eq_zero {a : List Char} : ∀ {b}, compareL a b = 0 ↔ a = b := by
  induction a with
  | nil =>
    intro b
    cases b <;> simp [compareL]
  | cons x xs ih =>
    intro b
    cases b with
    | nil => simp [compareL]
    | cons y ys =>
      simp only [compareL]
      by_cases h1 : x.toNat < y.toNat
      · rw [if_pos h1]
        constructor
        · intro hc
          simp at hc
        · intro hc
          cases hc
          omega
      · by_cases h2 : y.toNat < x.toNat
        · rw [if_neg h1, if_pos h2]
          constructor
          · intro hc
            simp at hc
          · intro hc
            cases hc
            omega
        · rw [if_neg h1, if_neg h2]
          have hxy : x = y := by
            have h3 : x.val.toNat = y.val.toNat := by
              have h4 : x.toNat = y.toNat := by omega
              exact h4
            exact Char.ext (UInt32.ext h3)
          subst hxy
          rw [ih]
          simp

theorem compareL_lt_trans : ∀ (a b c : List Char),
    compareL a b < 0 → compareL b c < 0 → compareL a c < 0 := by
  intro a
  induction a with
  | nil =>
    intro b c hab hbc
    cases c with
    | nil =>
      cases b with
      | nil => simp [compareL] at hab
      | cons y ys => simp [compareL] at hbc
    | cons z zs => simp [compareL]
  | cons x xs ih =>
    intro b c hab hbc
    cases b with
    | nil => simp [compareL] at hab
    | cons y ys =>
      cases c with
      | nil => simp [compareL] at hbc
      | cons z zs =>
        simp only [compareL] at hab hbc ⊢
        by_cases h1 : x.toNat < y.toNat
        · by_cases h2 : y.toNat < z.toNat
          · rw [if_pos (by omega)]
            simp
          · rw [if_neg h2] at hbc
            by_cases h3 : z.toNat < y.toNat
            · rw [if_pos h3] at hbc
              simp at hbc
            · have hyz : y.toNat = z.toNat := by omega
              rw [if_pos (by omega)]
              simp
        · rw [if_neg h1] at hab
          by_cases h1' : y.toNat < x.toNat
          · rw [if_pos h1'] at hab
            simp at hab
          · rw [if_neg h1'] at hab
            have hxy : x.toNat = y.toNat := by omega
            by_cases h2 : y.toNat < z.toNat
            · rw [if_pos (by omega)]
              simp
            · rw [if_neg h2] at hbc
              by_cases h3 : z.toNat < y.toNat
              · rw [if_pos h3] at hbc
                simp at hbc
              · rw [if_neg h3] at hbc
                rw [if_neg (by omega), if_neg (by omega)]
                exact ih ys zs hab hbc

/-! ## C5: the comparator order -/

/-- Trichotomy for the code-point comparison: either `a` sorts strictly
before `b`, or the lists are equal, or `b` sorts strictly before `a`. -/
theorem compareL_trichotomy (a b : List Char) :
    compareL a b < 0 ∨ a = b ∨ compareL b a < 0 := by
  rcases lt_trichotomy (compareL a b) 0 with h | h | h
  · exact Or.inl h
  · exact Or.inr (Or.inl (compareL_eq_zero.mp h))
  · refine Or.inr (Or.inr ?_)
    rw [compareL_neg]
    omega

theorem sortKeyLe_total (x y : SortMeta) : sortKeyLe x y ∨ sortKeyLe y x := by
  unfold sortKeyLe
  rcases Nat.lt_trichotomy x.priority y.priority with hp | hp | hp
  · exact Or.inl (Or.inl hp)
  · rcases Nat.lt_trichotomy x.sub y.sub with hs | hs | hs
    · exact Or.inl (Or.inr ⟨hp, Or.inl hs⟩)
    · rcases compareL_trichotomy x.name y.name with hn | hn | hn
      · exact Or.inl (Or.inr ⟨hp, Or.inr ⟨hs, Or.inl hn⟩⟩)
      · rcases Nat.le_total x.order y.order with ho | ho
        · exact Or.inl (Or.inr ⟨hp, Or.inr ⟨hs, Or.inr ⟨hn, ho⟩⟩⟩)
        · exact Or.inr (Or.inr ⟨hp.symm, Or.inr ⟨hs.symm, Or.inr ⟨hn.symm, ho⟩⟩⟩)
      · exact Or.inr (Or.inr ⟨hp.symm, Or.inr ⟨hs.symm, Or.inl hn⟩⟩)
    · exact Or.inr (Or.inr ⟨hp.symm, Or.inl hs⟩)
  · exact Or.inr (Or.inl hp)

theorem sortKeyLe_trans {x y z : SortMeta} :
    sortKeyLe x y → sortKeyLe y z → sortKeyLe x z := by
  unfold sortKeyLe
  intro hxy hyz
  rcases hxy with h1 | ⟨hp1, h1⟩
  · rcases hyz with h2 | ⟨hp2, h2⟩
    · exact Or.inl (by omega)
    · exact Or.inl (by omega)
  · rcases hyz with h2 | ⟨hp2, h2⟩
    · exact Or.inl (by omega)
    · refine Or.inr ⟨by omega, ?_⟩
      rcases h1 with h1 | ⟨hs1, h1⟩
      · rcases h2 with h2 | ⟨hs2, h2⟩
        · exact Or.inl (by omega)
        · exact Or.inl (by omega)
      · rcases h2 with h2 | ⟨hs2, h2⟩
        · exact Or.inl (by omega)
        · refine Or.inr ⟨by omega, ?_⟩
          rcases h1 with h1 | ⟨hn1, h1⟩
          · rcases h2 with h2 | ⟨hn2, h2⟩
            · exact Or.inl (compareL_lt_trans _ _ _ h1 h2)
            · exact Or.inl (by rw [← hn2]; exact h1)
          · rcases h2 with h2 | ⟨hn2, h2⟩
            · exact Or.inl (by rw [hn1]; exact h2)
            · exact Or.inr ⟨hn1.trans hn2, le_trans h1 h2⟩

/-- `compareCards a b <= 0` is exactly the lexicographic key order on the
two sort metadata records. -/
theorem compareCards_le_iff (table : Nat → Option CardDetails)
    (zone : DeckSection) (a b : DeckCardGroup) :
    compareCards table zone a b ≤ 0 ↔
      sortKeyLe (getSortMeta table zone a) (getSortMeta table zone b) := by
  unfold compareCards sortKeyLe
  set mA := getSortMeta table zone a
  set mB := getSortMeta table zone b
  by_cases hp : mA.priority = mB.priority
  · rw [if_neg (not_not_intro hp)]
    by_cases hs : mA.sub = mB.sub
    · rw [if_neg (not_not_intro hs)]
      by_cases hn : compareL mA.name mB.name = 0
      · rw [if_neg (not_not_intro hn)]
        have hne : mA.name = mB.name := compareL_eq_zero.mp hn
        constructor
        · intro h
          exact Or.inr ⟨hp, Or.inr ⟨hs, Or.inr ⟨hne, by omega⟩⟩⟩
        · rintro (h | ⟨-, h | ⟨-, h | ⟨-, h⟩⟩⟩) <;> omega
      · rw [if_pos hn]
        constructor
        · intro h
          exact Or.inr ⟨hp, Or.inr ⟨hs, Or.inl (by omega)⟩⟩
        · rintro (h | ⟨-, h | ⟨-, h | ⟨hne, -⟩⟩⟩)
          · omega
          · omega
          · omega
          · exact absurd (compareL_eq_zero.mpr hne) hn
    · rw [if_pos hs]
      constructor
      · intro h
        exact Or.inr ⟨hp, Or.inl (by omega)⟩
      · rintro (h | ⟨-, h | ⟨h, -⟩⟩)
        · omega
        · omega
        · exact absurd h hs
  · rw [if_pos hp]
    constructor
    · intro h
      exact Or.inl (by omega)
    · rintro (h | ⟨h, -⟩)
      · omega
      · exact absurd h hp

/-- C5 (amended): in structural sort mode every section's output is
sorted by the comparator's lexicographic key: category priority ascending
— unresolved entries (id 0) FIRST with priority 0, then monsters (1),
spells (2), traps (3) — then sub-priority bucket ascending (spells:
normal, equip, quick-play, field, ritual, continuous, other; traps:
normal, counter, continuous, other), then lower-cased name ascending in
code-point order, then first-occurrence index ascending. -/
theorem toGroup_sorted (table : Nat → Option CardDetails)
    (pointEntries : List (List Char × Nat)) (zone : DeckSection)
    (ids : List Nat) :
    (toGroup table pointEntries zone ids).Pairwise
      (fun a b => sortKeyLe (getSortMeta table zone a)
        (getSortMeta table zone b)) := by
  have hs : (toGroup table pointEntries zone ids).Pairwise
      (fun a b : DeckCardGroup => compareCards table zone a b ≤ 0) := by
    unfold toGroup
    haveI : IsTotal DeckCardGroup
        (fun a b => compareCards table zone a b ≤ 0) :=
      ⟨fun a b => (sortKeyLe_total _ _).imp
        (compareCards_le_iff table zone a b).mpr
        (compareCards_le_iff table zone b a).mpr⟩
    haveI : IsTrans DeckCardGroup
        (fun a b => compareCards table zone a b ≤ 0) :=
      ⟨fun a b c hab hbc => (compareCards_le_iff table zone a c).mpr
        (sortKeyLe_trans ((compareCards_le_iff table zone a b).mp hab)
          ((compareCards_le_iff table zone b c).mp hbc))⟩
    exact List.sorted_insertionSort _ _
  exact hs.imp (fun h => (compareCards_le_iff table zone _ _).mp h)

/-- C5 counterexample: sorting the main section [0, 7], where card 7 is a
normal monster and 0 is an unresolved entry, puts the unresolved group
BEFORE the monster group, so the claimed category order (monsters first,
unresolved last) fails. -/
theorem toGroup_claim_order_counterexample :
    ¬ (toGroup sortTable [] DeckSection.main [0, 7]).Pairwise
      (fun a b => claimCatRank sortTable DeckSection.main a ≤
        claimCatRank sortTable DeckSection.main b) := by
  decide
